import Mathlib

/-! The orchestration core of gonews-microservices.

A shallow embedding of
* `APIGateway/pkg/api/api.go` (`addComment`, the moderate-then-store pipeline;
  `detailedNews`, `getPost`, `getComments`),
* `Cenzor/pkg/api/api.go` (`censored`, `cenzor`),
* `Comments/pkg/db/db.go` (`buildCommentTree`) and `Comments/pkg/api/api.go`
  (`addComment`),
* `Gonews/pkg/api/api.go` (`handlePagination`, `postsHandler`, `filternews`,
  `postById`) and the stores `Gonews/pkg/storage/memdb` and
  `Gonews/pkg/storage/postgres` (`PostByID`),
together with the properties stated about them.

Go `int`/`int64` values that are only compared (identifiers, time stamps, HTTP
status codes) are `Int`/`Nat`; a byte slice is a `List Nat`.
-/

namespace APIGateway

/-! ## `addComment` of the gateway -/

/-- A request or response body: the bytes of a Go `[]byte`. -/
abbrev Bytes := List Nat

def reqIDStr : String := "requset_id"
def commentsUrl : String := "http://localhost:8082/comments"
def cenzorUrl : String := "http://localhost:8083/cenzor"

def StatusOK : Nat := 200
def StatusBadRequest : Nat := 400
def StatusInternalServerError : Nat := 500

/-- The two downstream services `addComment` talks to. -/
inductive Service where
  | cenzor
  | comments
  deriving DecidableEq, Repr

/-- What `client.Do` gives back: an error (the service could not be reached) or a
response, of which `addComment` reads the status code only. -/
inductive DoResult where
  | transportErr (msg : String)
  | response (status : Nat)
  deriving DecidableEq, Repr

/-- The collaborators of one run of `addComment`: what reading the inbound body
gives, whether `http.NewRequest` fails for each of the two outgoing requests, and
what each service answers when `client.Do` is called on it. -/
structure Env where
  readBody : Except String Bytes
  cenzorNewRequest : Option String
  cenzorDo : DoResult
  commentsNewRequest : Option String
  commentsDo : DoResult

/-- One `client.Do` call made by the handler, with what came back. -/
structure Call where
  service : Service
  url : String
  body : Bytes
  result : DoResult
  deriving DecidableEq, Repr

/-- What the handler wrote to its `http.ResponseWriter`. -/
structure Response where
  status : Nat
  body : String
  deriving DecidableEq, Repr

/-- The library `http.Error(w, msg, code)`: status `code`, body `msg` and a newline. -/
def httpError (msg : String) (code : Nat) : Response :=
  { status := code, body := msg ++ "\n" }

/-- The library `w.WriteHeader(code)` with nothing written after it. -/
def writeHeader (code : Nat) : Response :=
  { status := code, body := "" }

/-- The handler `addComment` (api.go, lines 238-296): the response written and the
`client.Do` calls made, in the order they were made. -/
def addComment (env : Env) (reqID : String) : Response × List Call :=
  match env.readBody with
  | .error e => (httpError e StatusBadRequest, [])
  | .ok body =>
    let cenzorTarget := cenzorUrl ++ "?" ++ reqIDStr ++ "=" ++ reqID
    match env.cenzorNewRequest with
    | some e => (httpError e StatusBadRequest, [])
    | none =>
      let cenzorCall : Call := ⟨.cenzor, cenzorTarget, body, env.cenzorDo⟩
      match env.cenzorDo with
      | .transportErr e => (httpError e StatusBadRequest, [cenzorCall])
      | .response cenzorStatus =>
        if cenzorStatus = StatusOK then
          let target := commentsUrl ++ "?" ++ reqIDStr ++ "=" ++ reqID
          match env.commentsNewRequest with
          | some e => (httpError e StatusBadRequest, [cenzorCall])
          | none =>
            let call : Call := ⟨.comments, target, body, env.commentsDo⟩
            match env.commentsDo with
            | .transportErr e => (httpError e StatusBadRequest, [cenzorCall, call])
            | .response status =>
              if status = StatusOK then
                (writeHeader StatusOK, [cenzorCall, call])
              else
                (httpError "Failed to save comment" StatusBadRequest, [cenzorCall, call])
        else
          (httpError "Comment was not censored" StatusBadRequest, [cenzorCall])

/-- The number of write requests sent to the comment store in a run. -/
def storeWrites (calls : List Call) : Nat :=
  (calls.filter (fun c => decide (c.service = Service.comments))).length

end APIGateway

namespace Cenzor

/-! ## `censored` of the censor service -/

/-- The library `strings.ToLower`, which maps every rune of the string through
`unicode.ToLower`; the rune table `lower` is a parameter. A Go string is taken
as the sequence of its runes: the strings here are valid UTF-8 (a decoded JSON
field and three literals), for which containment of the bytes is containment of
the runes. -/
def ToLower (lower : Char → Char) (s : String) : String :=
  ⟨s.data.map lower⟩

/-- The library `strings.Contains`: `substr` occurs within `s`. -/
def Contains (s substr : String) : Bool :=
  decide (substr.data <:+: s.data)

def swearWords : List String := ["йцукен", "ячсмит", "пролсд"]

/-- The `for _, swearWord := range swearWords` loop of `censored`. -/
def censoredLoop (lower : Char → Char) (comment : String) : List String → Bool
  | [] => true
  | swearWord :: rest =>
    if Contains (ToLower lower comment) swearWord then false
    else censoredLoop lower comment rest

/-- The function `censored` (Cenzor api.go, lines 85-94). -/
def censored (lower : Char → Char) (comment : String) : Bool :=
  censoredLoop lower comment swearWords

/-- The status the handler `cenzor` gives a decoded comment (lines 72-78). -/
def cenzorStatus (lower : Char → Char) (content : String) : Nat :=
  if censored lower content then 200 else 400

end Cenzor

namespace Comments

/-! ## `buildCommentTree` of the comment store

The Go function works on memory: `roots` and the slices kept in `childrenMap` are
arrays of `models.Comment` structs, the stack holds pointers into these arrays,
and `parent.Replies = childrenMap[parent.ID]` makes the parent's `Replies` header
share the backing array of the map entry. The embedding keeps that memory: a
`Cell` is a struct in one of the arrays, a `Slice` is a slice header, a `Ptr` is
an address, and the forest that the caller sees is read back from the memory the
loop leaves behind.
-/

/-- Modelled from the spec: the struct `models.Comment` of the comment store
(package `Comments/pkg/models`, not among the sources): identifier, owning post
identifier, parent comment identifier (0 for a top-level comment), body text,
creation time stamp and the ordered list of replies. As a value it is a finite
tree. -/
inductive Comment where
  | mk (ID PostID ParentID : Int) (Content : String) (AddTime : Int) (Replies : List Comment)
  deriving Repr

namespace Comment

def ID : Comment → Int
  | mk i _ _ _ _ _ => i

def PostID : Comment → Int
  | mk _ p _ _ _ _ => p

def ParentID : Comment → Int
  | mk _ _ q _ _ _ => q

def Content : Comment → String
  | mk _ _ _ c _ _ => c

def AddTime : Comment → Int
  | mk _ _ _ _ t _ => t

def Replies : Comment → List Comment
  | mk _ _ _ _ _ rs => rs

end Comment

/-- A slice header held in a `Replies` field while `buildCommentTree` runs: either
the header copied from the input comment, whose elements the function never
writes, or the header stored in `childrenMap[k]`, which shares that entry's
backing array. -/
inductive Slice where
  | vals (rs : List Comment)
  | children (k : Int)

/-- A `models.Comment` struct in memory: the five scalar fields and the `Replies`
slice header. -/
structure Cell where
  ID : Int
  PostID : Int
  ParentID : Int
  Content : String
  AddTime : Int
  Replies : Slice

/-- A `*models.Comment` the stack can hold: `&roots[i]`, or `&parent.Replies[i]`
taken after `parent.Replies = childrenMap[k]`, which is the address of element
`i` of the backing array of `childrenMap[k]`. -/
inductive Ptr where
  | root (i : Nat)
  | reply (k : Int) (i : Nat)
  deriving DecidableEq, Repr

/-- The variables of `buildCommentTree`: the argument `comments`, the map
`childrenMap` (a missing key reads as the nil slice), the slice `roots` and the
work list `stack`, kept with its top first (the last element of the Go slice is
the head of the list). -/
structure State where
  comments : List Comment
  childrenMap : Int → List Cell
  roots : List Cell
  stack : List Ptr

/-- The copy of a `comment` that `append` stores in an array. -/
def cellOf (c : Comment) : Cell :=
  { ID := c.ID, PostID := c.PostID, ParentID := c.ParentID, Content := c.Content,
    AddTime := c.AddTime, Replies := .vals c.Replies }

/-- The body of `for _, comment := range comments` (db.go, lines 111-117). -/
def partitionStep (s : State) (comment : Comment) : State :=
  if comment.ParentID = 0 then
    { s with roots := s.roots ++ [cellOf comment] }
  else
    let siblings := s.childrenMap comment.ParentID ++ [cellOf comment]
    { s with childrenMap := Function.update s.childrenMap comment.ParentID siblings }

/-- Reading through a pointer; `none` is an address outside the array. -/
def State.load (s : State) : Ptr → Option Cell
  | .root i => s.roots[i]?
  | .reply k i => (s.childrenMap k)[i]?

/-- The array `cells` with the `Replies` header of element `i` overwritten. -/
def setReplies (r : Slice) : List Cell → Nat → List Cell
  | [], _ => []
  | c :: cs, 0 => { c with Replies := r } :: cs
  | c :: cs, i + 1 => c :: setReplies r cs i

/-- The assignment `p.Replies = r` through the pointer `p`. -/
def State.storeReplies (s : State) (p : Ptr) (r : Slice) : State :=
  match p with
  | .root i => { s with roots := setReplies r s.roots i }
  | .reply k i =>
    { s with childrenMap := Function.update s.childrenMap k (setReplies r (s.childrenMap k) i) }

/-- The loop `for i := range xs { stack = append(stack, &xs[i]) }` over an array
of `n` elements whose addresses are `mk 0`, ..., `mk (n - 1)`. -/
def pushAll (mk : Nat → Ptr) (n : Nat) (stack : List Ptr) : List Ptr :=
  (List.range n).foldl (fun st i => mk i :: st) stack

/-- The body of `for len(stack) > 0` (lines 130-135) once `parent` has been popped
and `rest` is what remains of the stack. -/
def loopBody (s : State) (p : Ptr) (rest : List Ptr) : Option State :=
  match s.load p with
  | none => none
  | some parent =>
    let s1 := s.storeReplies p (.children parent.ID)
    some { s1 with stack := pushAll (Ptr.reply parent.ID) (s1.childrenMap parent.ID).length rest }

/-- The loop `for len(stack) > 0` (lines 129-136); `fuel` bounds the number of
pops, and `none` is a loop that has not ended within the fuel. -/
def loop : Nat → State → Option State
  | 0, s =>
    match s.stack with
    | [] => some s
    | _ :: _ => none
  | fuel + 1, s =>
    match s.stack with
    | [] => some s
    | p :: rest =>
      match loopBody s p rest with
      | none => none
      | some s1 => loop fuel s1

/-- Apply `f` to every element; `none` as soon as one application gives `none`. -/
def readAll {α β : Type} (f : α → Option β) : List α → Option (List β)
  | [] => some []
  | a :: as =>
    match f a with
    | none => none
    | some b =>
      match readAll f as with
      | none => none
      | some bs => some (b :: bs)

/-- The comment value a caller sees in a struct of the memory `m`, following the
slice headers at most `d` levels deep. -/
def readCell (m : Int → List Cell) : Nat → Cell → Option Comment
  | 0, _ => none
  | d + 1, c =>
    match c.Replies with
    | .vals rs => some (.mk c.ID c.PostID c.ParentID c.Content c.AddTime rs)
    | .children k =>
      match readAll (readCell m d) (m k) with
      | none => none
      | some rs => some (.mk c.ID c.PostID c.ParentID c.Content c.AddTime rs)

/-- The function `buildCommentTree` (db.go, lines 107-152) as a run on its
variables: the state it ends in and the forest `roots` it returns, read back
from that state. The fuel bounds the number of pops of the loop and the depth of
the forest read back; `none` is a run that needs more fuel, or does not end. -/
def run (fuel : Nat) (comments : List Comment) : Option (State × List Comment) :=
  let s0 : State := { comments := comments, childrenMap := fun _ => [], roots := [], stack := [] }
  let s1 := s0.comments.foldl partitionStep s0
  let s2 := { s1 with stack := pushAll Ptr.root s1.roots.length [] }
  match loop fuel s2 with
  | none => none
  | some s3 =>
    match readAll (readCell s3.childrenMap fuel) s3.roots with
    | none => none
    | some forest => some (s3, forest)

/-- The forest returned by `buildCommentTree`. -/
def buildCommentTree (fuel : Nat) (comments : List Comment) : Option (List Comment) :=
  (run fuel comments).map Prod.snd

/-! ### The vocabulary of the properties -/

/-- The fields of a comment other than `Replies`. -/
structure Fields where
  ID : Int
  PostID : Int
  ParentID : Int
  Content : String
  AddTime : Int
  deriving DecidableEq, Repr

def Comment.fields : Comment → Fields
  | .mk i p q c t _ => ⟨i, p, q, c, t⟩

def Cell.fields (c : Cell) : Fields := ⟨c.ID, c.PostID, c.ParentID, c.Content, c.AddTime⟩

/-- The input comments have pairwise distinct identifiers. -/
def DistinctIDs (cs : List Comment) : Prop := (cs.map Comment.ID).Nodup

/-- The input comments with `ParentID` 0, in input order. -/
def rootsOf (cs : List Comment) : List Comment :=
  cs.filter (fun c => decide (c.ParentID = 0))

/-- The non-root input comments whose `ParentID` is `k`, in input order. -/
def childrenOf (cs : List Comment) (k : Int) : List Comment :=
  cs.filter (fun c => decide (c.ParentID ≠ 0 ∧ c.ParentID = k))

mutual
/-- The tree `t` is the reference tree of the input comment with fields `f`: the
same fields, and as replies the reference trees of the non-root input comments
whose `ParentID` is its identifier, in input order. -/
def IsRefTree (cs : List Comment) : Fields → Comment → Prop
  | f, .mk i p q c t rs =>
    Fields.mk i p q c t = f ∧ IsRefList cs ((childrenOf cs i).map Comment.fields) rs
/-- The reference trees of a list of comments, one for one and in order. -/
def IsRefList (cs : List Comment) : List Fields → List Comment → Prop
  | [], [] => True
  | f :: fs, t :: ts => IsRefTree cs f t ∧ IsRefList cs fs ts
  | [], _ :: _ => False
  | _ :: _, [] => False
end

/-- The forest `forest` is the reference forest of the input `cs`. -/
def IsRefForest (cs : List Comment) (forest : List Comment) : Prop :=
  IsRefList cs ((rootsOf cs).map Comment.fields) forest

mutual
/-- The number of comments in a tree. -/
def Comment.size : Comment → Nat
  | .mk _ _ _ _ _ rs => 1 + sizeList rs
/-- The number of comments in a forest. -/
def sizeList : List Comment → Nat
  | [] => 0
  | c :: cs => c.size + sizeList cs
end

mutual
/-- The comments of a tree, each by its fields, parents before replies. -/
def Comment.nodes : Comment → List Fields
  | .mk i p q c t rs => ⟨i, p, q, c, t⟩ :: nodesList rs
/-- The comments of a forest. -/
def nodesList : List Comment → List Fields
  | [] => []
  | c :: cs => c.nodes ++ nodesList cs
end

mutual
/-- The number of comments placed into some `Replies` list below a comment. -/
def Comment.placed : Comment → Nat
  | .mk _ _ _ _ _ rs => rs.length + placedList rs
/-- The number of comments placed into some `Replies` list of a forest. -/
def placedList : List Comment → Nat
  | [] => 0
  | c :: cs => c.placed + placedList cs
end

/-- Following the parent links of the input comment leads to a comment with
`ParentID` 0. -/
inductive Reach (cs : List Comment) : Comment → Prop where
  | root (c : Comment) : c ∈ cs → c.ParentID = 0 → Reach cs c
  | reply (c p : Comment) : c ∈ cs → c.ParentID ≠ 0 → p ∈ cs → p.ID = c.ParentID →
      Reach cs p → Reach cs c

/-- The input comment `d` is a reply to `c`, or a reply to a descendant of `c`. -/
inductive Descends (cs : List Comment) (c : Comment) : Comment → Prop where
  | reply (d : Comment) : d ∈ cs → d.ParentID ≠ 0 → d.ParentID = c.ID → Descends cs c d
  | step (d e : Comment) : d ∈ cs → d.ParentID ≠ 0 → d.ParentID = e.ID →
      Descends cs c e → Descends cs c d

/-! ### The vocabulary of the proofs -/

/-- The identifiers met when following parent links from a comment up to a root. -/
inductive Chain (cs : List Comment) : List Int → Prop where
  | root (r : Comment) : r ∈ cs → r.ParentID = 0 → Chain cs [r.ID]
  | reply (x : Comment) (l : List Int) : x ∈ cs → x.ParentID ≠ 0 →
      Chain cs (x.ParentID :: l) → Chain cs (x.ID :: x.ParentID :: l)

/-- The node `f` is an input comment whose chain of parents ends with the chain `base`. -/
def Below (cs : List Comment) (base : List Int) (f : Fields) : Prop :=
  (∃ y ∈ cs, y.fields = f) ∧ ∃ l, Chain cs l ∧ l.head? = some f.ID ∧ base <:+ l

/-- The struct after the loop body has run on it. -/
def Cell.mark (c : Cell) : Cell := { c with Replies := .children c.ID }

/-- The struct `b` is `a`, possibly after the loop body has run on it. -/
def CellLe (a b : Cell) : Prop := b = a ∨ b = a.mark

def HeapLe (m m' : Int → List Cell) : Prop := ∀ k, List.Forall₂ CellLe (m k) (m' k)

/-- The state `s'` comes from `s` by running the loop body on some structs. -/
structure StateLe (s s' : State) : Prop where
  comments : s'.comments = s.comments
  roots : List.Forall₂ CellLe s.roots s'.roots
  heap : HeapLe s.childrenMap s'.childrenMap

/-- The array `roots` (for `none`) or the array of the map entry `k`. -/
def State.arrOf (s : State) : Option Int → List Cell
  | none => s.roots
  | some k => s.childrenMap k

/-- The addresses of the elements of the array chosen by `State.arrOf`. -/
def ptrOf : Option Int → Nat → Ptr
  | none => Ptr.root
  | some k => Ptr.reply k

/-- The map entries hold the non-root input comments, grouped by `ParentID`. -/
def Base (cs : List Comment) (m : Int → List Cell) : Prop :=
  ∀ k, (m k).map Cell.fields = (childrenOf cs k).map Comment.fields

mutual
/-- The struct `cell` of the memory `m` reads as the tree `t`, every struct of the
tree having been through the loop body. -/
def Marked (m : Int → List Cell) : Cell → Comment → Prop
  | cell, .mk i p q c t rs =>
    cell.fields = ⟨i, p, q, c, t⟩ ∧ (∃ k, cell.Replies = .children k ∧ k = i) ∧
      MarkedList m (m i) rs
/-- The structs `cells` read as the trees `ts`, one for one. -/
def MarkedList (m : Int → List Cell) : List Cell → List Comment → Prop
  | [], [] => True
  | cell :: cells, t :: ts => Marked m cell t ∧ MarkedList m cells ts
  | [], _ :: _ => False
  | _ :: _, [] => False
end

/-- Popping a pointer whose struct has a reference tree of at most `n` comments
processes that whole subtree: after as many pops as the tree has comments the
stack is back to `rest` and the struct reads as the tree. -/
def SubtreeDone (cs : List Comment) (n : Nat) : Prop :=
  ∀ (t : Comment) (s : State) (p : Ptr) (cell : Cell) (rest : List Ptr) (fuel : Nat),
    t.size ≤ n → Base cs s.childrenMap → s.load p = some cell → IsRefTree cs cell.fields t →
    ∃ s', loop (fuel + t.size) { s with stack := p :: rest } = loop fuel { s' with stack := rest } ∧
      StateLe s s' ∧ ∃ cell', s'.load p = some cell' ∧ Marked s'.childrenMap cell' t

end Comments

namespace APIGateway

/-! ## `detailedNews`, `getPost` and `getComments` of the gateway -/

def newsUrl : String := "http://localhost:8081/news"

/-- The struct `models.Comment` of the gateway. -/
inductive Comment where
  | mk (ID PostID ParentID : Int) (Content : String) (AddTime : Int) (Visible : Bool)
      (Replies : List Comment)
  deriving Repr

/-- The struct `models.PostFullDetailed`. -/
structure PostFullDetailed where
  ID : Int
  Title : String
  Content : String
  PubTime : Int
  Link : String
  Comments : List Comment
  deriving Repr

/-- What `http.Get` gives back: an error, or a response with its status code and
what `io.ReadAll(resp.Body)` gives (the body, or an error). -/
inductive GetResult where
  | transportErr (msg : String)
  | response (status : Nat) (body : Except String Bytes)

/-- The collaborators of `getPost` and `getComments`: the answer of `http.Get`
to a URL, and the library `json.Unmarshal` into a post and into a comment list. -/
structure Downstream where
  httpGet : String → GetResult
  unmarshalPost : Bytes → Except String PostFullDetailed
  unmarshalComments : Bytes → Except String (List Comment)

/-- The conversion `string(body)`; the text is only carried along, byte for byte. -/
def goString (b : Bytes) : String :=
  String.mk (b.map Char.ofNat)

/-- The function `getPost` (api.go, lines 304-327); an error is its message. -/
def getPost (env : Downstream) (id reqID : String) : Except String PostFullDetailed :=
  let urlStr := newsUrl ++ "/id?id=" ++ id ++ "&" ++ reqIDStr ++ "=" ++ reqID
  match env.httpGet urlStr with
  | .transportErr e => .error e
  | .response status read =>
    match read with
    | .error e => .error e
    | .ok body =>
      if status ≠ StatusOK then .error (goString body)
      else
        match env.unmarshalPost body with
        | .error e => .error e
        | .ok post => .ok post

/-- The function `getComments` (api.go, lines 335-352). -/
def getComments (env : Downstream) (id reqID : String) : Except String (List Comment) :=
  let urlStr := commentsUrl ++ "?id_post=" ++ id ++ "&" ++ reqIDStr ++ "=" ++ reqID
  match env.httpGet urlStr with
  | .transportErr e => .error e
  | .response _ read =>
    match read with
    | .error e => .error e
    | .ok body =>
      match env.unmarshalComments body with
      | .error e => .error e
      | .ok comments => .ok comments

/-- A value received from the channel `result` in `detailedNews`, by its dynamic
type. -/
inductive Arrival where
  | post (p : PostFullDetailed)
  | comments (cs : List Comment)
  | err (msg : String)

/-- The loop `for res := range result` of `detailedNews` (lines 211-221) on the
values in the order they arrive: the error that made the handler return, or the
variables `post` and `comments` after the loop. -/
def mergeLoop : List Arrival → PostFullDetailed → List Comment →
    Except String (PostFullDetailed × List Comment)
  | [], post, comments => .ok (post, comments)
  | .post p :: rest, _, comments => mergeLoop rest p comments
  | .comments cs :: rest, post, _ => mergeLoop rest post cs
  | .err e :: _, _, _ => .error e

/-- What `detailedNews` does to its `http.ResponseWriter`. -/
inductive Written where
  | error (msg : String) (code : Nat)
  | header (code : Nat)
  | json (post : PostFullDetailed)

/-- The values the two goroutines of `detailedNews` send (lines 183-201), in the
order they reach the channel: the post fetch first when `postFirst`, the comments
fetch first otherwise. -/
def arrivals (env : Downstream) (postID reqID : String) (postFirst : Bool) : List Arrival :=
  let a : Arrival :=
    match getPost env postID reqID with
    | .error e => .err e
    | .ok post => .post post
  let b : Arrival :=
    match getComments env postID reqID with
    | .error e => .err e
    | .ok comments => .comments comments
  if postFirst then [a, b] else [b, a]

/-- The first error among the values received. -/
def firstError : List Arrival → Option String
  | [] => none
  | .err e :: _ => some e
  | _ :: rest => firstError rest

/-- The handler `detailedNews` (api.go, lines 170-228): `postID` is
`r.URL.Query().Get("id")`, `postFirst` is the order in which the two results
reach the channel, `encodeErr` is what `Encode` returns. -/
def detailedNews (env : Downstream) (postID reqID : String) (postFirst : Bool)
    (encodeErr : Option String) : List Written :=
  if postID = "" then [.error "ID not found." StatusBadRequest]
  else
    match mergeLoop (arrivals env postID reqID postFirst)
        { ID := 0, Title := "", Content := "", PubTime := 0, Link := "", Comments := [] } [] with
    | .error e => [.error e StatusBadRequest]
    | .ok (post, comments) =>
      let post := { post with Comments := comments }
      match encodeErr with
      | none => [.header StatusOK, .json post]
      | some e => [.header StatusOK, .json post, .error e StatusInternalServerError]

end APIGateway

namespace Gonews

/-! ## `handlePagination` and the list endpoints of the news service

Go `int` is the 64-bit signed integer: a value is an `Int` within
`minInt .. maxInt`, and `+`, `-`, `*` wrap around (`wrapInt`). -/

def maxInt : Int := 9223372036854775807
def minInt : Int := -9223372036854775808

/-- The 64-bit two's complement value of an integer: what a Go `int` holds after
an arithmetic operation whose exact result is `x`. -/
def wrapInt (x : Int) : Int := (x + 9223372036854775808) % 18446744073709551616 - 9223372036854775808

/-- The value of an ASCII decimal digit. -/
def digitVal (c : Char) : Option Nat :=
  if '0' ≤ c ∧ c ≤ '9' then some (c.toNat - '0'.toNat) else none

/-- The value of a string of decimal digits read after the value `acc`. -/
def parseDigits : List Char → Nat → Option Nat
  | [], acc => some acc
  | c :: cs, acc =>
    match digitVal c with
    | none => none
    | some d => parseDigits cs (10 * acc + d)

/-- The integer a string denotes in decimal: an optional sign and at least one
digit; `none` for any other string. -/
def decimalValue (s : String) : Option Int :=
  match s.data with
  | [] => none
  | '-' :: ds =>
    match ds with
    | [] => none
    | _ :: _ => (parseDigits ds 0).map (fun n => -(n : Int))
  | '+' :: ds =>
    match ds with
    | [] => none
    | _ :: _ => (parseDigits ds 0).map (fun n => (n : Int))
  | ds => (parseDigits ds 0).map (fun n => (n : Int))

/-- The library `strconv.Atoi`: the decimal value of the string when the string
is a decimal integer that fits a Go `int`; `none` is a non-nil error (a syntax
error, or a value out of range). -/
def Atoi (s : String) : Option Int :=
  match decimalValue s with
  | none => none
  | some v => if minInt ≤ v ∧ v ≤ maxInt then some v else none

/-- The struct `storage.Post`. -/
structure Post where
  ID : Int
  Title : String
  Content : String
  PubTime : Int
  Link : String
  deriving DecidableEq, Repr

def PostsPerPage : Int := 10

/-- The struct `paginate.Pagination`. -/
structure Pagination where
  CurrentPage : Int
  TotalPages : Int
  NumberOfPosts : Int
  deriving DecidableEq, Repr

/-- The struct `paginate.Paginate`. -/
structure Paginate where
  Posts : List Post
  Pagination : Pagination
  deriving DecidableEq, Repr

/-- What a handler does to its `http.ResponseWriter`: `http.Error(w, msg, code)`,
or handing a value to `json.NewEncoder(w).Encode`. -/
inductive Write where
  | error (msg : String) (code : Nat)
  | json (res : Paginate)
  deriving DecidableEq, Repr

/-- What `handlePagination` did: its writes to the response, in order, and the
arguments `(start, limit)` of its calls of `fetchPosts`, in order. -/
structure Handled where
  writes : List Write
  fetches : List (Int × Int)
  deriving DecidableEq, Repr

/-- The statement `if err := json.NewEncoder(w).Encode(res); err != nil { http.Error(w, ..., 500) }`;
`encodeErr` is what `Encode` returns and `pre` the text before the error. -/
def encode (encodeErr : Option String) (res : Paginate) (pre : String) : List Write :=
  match encodeErr with
  | none => [.json res]
  | some e => [.json res, .error (pre ++ e) 500]

/-- The method `handlePagination` (api.go, lines 168-216); `strPage` is
`r.URL.Query().Get("page")`. -/
def handlePagination (encodeErr : Option String) (strPage : String) (totalCount : Int)
    (fetchPosts : Int → Int → Except String (List Post)) : Handled :=
  match Atoi strPage with
  | none => { writes := [.error "Invalid page number" 400], fetches := [] }
  | some page =>
    if page < 1 then
      { writes := [.error "Invalid page number" 400], fetches := [] }
    else if totalCount = 0 then
      let res : Paginate :=
        { Posts := [], Pagination := { CurrentPage := 1, TotalPages := 1, NumberOfPosts := 0 } }
      { writes := encode encodeErr res "Can't encode response. Error: ", fetches := [] }
    else
      let start := wrapInt (PostsPerPage * wrapInt (page - 1))
      match fetchPosts start PostsPerPage with
      | .error e =>
        { writes := [.error ("Can't get posts. Error: " ++ e) 500],
          fetches := [(start, PostsPerPage)] }
      | .ok posts =>
        let pages := wrapInt (Int.tdiv totalCount PostsPerPage + 1)
        let numberOfPosts : Int :=
          if page < pages then (posts.length : Int) else Int.tmod totalCount PostsPerPage
        let p : Pagination :=
          { CurrentPage := page, TotalPages := pages, NumberOfPosts := numberOfPosts }
        let res : Paginate := { Posts := posts, Pagination := p }
        { writes := encode encodeErr res "Can't encode posts. Error: ",
          fetches := [(start, PostsPerPage)] }

/-- The results of the operations of `storage.Interface` that the list endpoints
use, for one request. -/
structure Store where
  Count : Except String Int
  CountOfFilter : String → Except String Int
  Posts : Int → Int → Except String (List Post)
  Filter : String → Int → Int → Except String (List Post)

/-- A call of a store operation. -/
inductive StoreCall where
  | Count
  | CountOfFilter (s : String)
  | Posts (start limit : Int)
  | Filter (s : String) (start limit : Int)
  deriving DecidableEq, Repr

/-- What a list endpoint did: its writes to the response and its store calls, in
order. -/
structure Served where
  writes : List Write
  calls : List StoreCall
  deriving DecidableEq, Repr

/-- The handler `postsHandler` (api.go, lines 128-138). -/
def postsHandler (db : Store) (encodeErr : Option String) (strPage : String) : Served :=
  match db.Count with
  | .error e =>
    { writes := [.error ("Can't get count. Error: " ++ e) 500], calls := [.Count] }
  | .ok count =>
    let h := handlePagination encodeErr strPage count (fun start limit => db.Posts start limit)
    { writes := h.writes, calls := .Count :: h.fetches.map (fun a => StoreCall.Posts a.1 a.2) }

/-- The handler `filternews` (api.go, lines 147-159); `strSearch` is
`r.URL.Query().Get("s")`. -/
def filternews (db : Store) (encodeErr : Option String) (strSearch strPage : String) : Served :=
  match db.CountOfFilter strSearch with
  | .error e =>
    { writes := [.error ("Can't get count. Error: " ++ e) 500],
      calls := [.CountOfFilter strSearch] }
  | .ok count =>
    let h := handlePagination encodeErr strPage count
      (fun start limit => db.Filter strSearch start limit)
    { writes := h.writes,
      calls := .CountOfFilter strSearch ::
        h.fetches.map (fun a => StoreCall.Filter strSearch a.1 a.2) }

/-- The handler answered 400 Bad Request, "Invalid page number". -/
def RejectsPage (writes : List Write) : Prop :=
  writes = [Write.error "Invalid page number" 400]

end Gonews

namespace APIGateway

/-! ## The fetches of `detailedNews`, and `idGenerator` -/

/-- The URLs of the `http.Get` calls of one run of `detailedNews`: none when the
handler returns at the check `postID == ""` (line 173), and otherwise the URL of
`getPost` and the URL of `getComments`, which the two goroutines (lines 183-201)
call whatever the id is. -/
def detailedNewsGets (postID reqID : String) : List String :=
  if postID = "" then []
  else
    [newsUrl ++ "/id?id=" ++ postID ++ "&" ++ reqIDStr ++ "=" ++ reqID,
     commentsUrl ++ "?id_post=" ++ postID ++ "&" ++ reqIDStr ++ "=" ++ reqID]

/-- The library `strconv.Itoa` on a non-negative number: its decimal digits. -/
def Itoa (n : Nat) : String := Nat.repr n

/-- The function `idGenerator` (api.go, lines 357-360); `r` is what
`r.Intn(10_000_000)` draws, a number with `0 <= r < 10000000`. -/
def idGenerator (r : Nat) : String :=
  Itoa (r + 100000)

end APIGateway

namespace Gonews

/-! ## `postById` and the two stores of the news service -/

/-- A Go `error` value as far as `postById` tells errors apart: the sentinel
`sql.ErrNoRows`, the sentinel `pgx.ErrNoRows` of the driver, an error made by
`fmt.Errorf` with `%w` around another one, and any other error. -/
inductive GoError where
  | sqlErrNoRows
  | pgxErrNoRows
  | wrap (msg : String) (inner : GoError)
  | other (msg : String)
  deriving DecidableEq, Repr

/-- The text `err.Error()`. -/
def GoError.text : GoError → String
  | .sqlErrNoRows => "sql: no rows in result set"
  | .pgxErrNoRows => "no rows in result set"
  | .wrap msg inner => msg ++ inner.text
  | .other msg => msg

/-- What `postById` does to its `http.ResponseWriter`: `http.Error`, or
`WriteHeader` followed by `Write`, or handing a post to the encoder (which
answers 200). -/
inductive PostWrite where
  | error (msg : String) (code : Nat)
  | headerAndBody (code : Nat) (body : String)
  | json (post : Post)
  deriving DecidableEq, Repr

/-- The handler `postById` (api.go, lines 95-120); `strID` is
`r.URL.Query().Get("id")`, `PostByID` the method of the store, `atoiErr` the text
of the error of `strconv.Atoi` and `encodeErr` what `Encode` returns. -/
def postById (PostByID : Int → Except GoError Post) (atoiErr : String)
    (encodeErr : Option String) (strID : String) : List PostWrite :=
  match Atoi strID with
  | none => [.error ("\x7b\"error\": \"Invalid post ID. Error: " ++ atoiErr ++ "\"\x7d") 400]
  | some id =>
    match PostByID id with
    | .error err =>
      if err = GoError.sqlErrNoRows then
        [.headerAndBody 404 "\x7b\"error\": \"Post not found\"\x7d"]
      else
        [.error ("\x7b\"error\": \"Can't get post by ID. Error: " ++ err.text ++ "\"\x7d") 500]
    | .ok post =>
      match encodeErr with
      | none => [.json post]
      | some e => [.json post, .error ("Can't encode post. Error: " ++ e) 500]

namespace Postgres

/-- The method `PostByID` of the postgres store (postgres.go, lines 65-76) on a
table `posts` holding `rows`: `QueryRow(...).Scan` gives `pgx.ErrNoRows` when no
row has the id, and the method wraps every error with `fmt.Errorf`. -/
def PostByID (rows : List Post) (id : Int) : Except GoError Post :=
  match rows.find? (fun p => decide (p.ID = id)) with
  | none => .error (.wrap "can't get post by id from db: " .pgxErrNoRows)
  | some post => .ok post

end Postgres

namespace Memdb

/-- The struct `memdb.DB` without its mutex: the next identifier and the map
`store`, kept as the list of its entries in the order the keys were first set. -/
structure DB where
  id : Int
  store : List (Int × Post)
  deriving DecidableEq, Repr

/-- The function `memdb.New`. -/
def New : DB := { id := 1, store := [] }

/-- The map assignment `m[k] = v`. -/
def mapSet : List (Int × Post) → Int → Post → List (Int × Post)
  | [], k, v => [(k, v)]
  | (k', v') :: rest, k, v =>
    if k' = k then (k, v) :: rest else (k', v') :: mapSet rest k v

/-- The map read `m[k]`: the zero `Post` for a missing key. -/
def mapGet : List (Int × Post) → Int → Post
  | [], _ => { ID := 0, Title := "", Content := "", PubTime := 0, Link := "" }
  | (k', v') :: rest, k => if k' = k then v' else mapGet rest k

/-- The method `Posts` (memdb.go, lines 26-34): every post of the map, in the
order the loop over the map meets them. -/
def Posts (db : DB) (_offset _limit : Int) : Except String (List Post) :=
  .ok (db.store.map Prod.snd)

/-- The method `PostByID` (memdb.go, lines 37-41). -/
def PostByID (db : DB) (id : Int) : Except GoError Post :=
  .ok (mapGet db.store id)

/-- The body of the loop of `AddPosts` (memdb.go, lines 47-51). The counter is
not wrapped at 64 bits: a map held in memory has far fewer than 2^63 entries. -/
def addPost (db : DB) (p : Post) : DB :=
  let p := { p with ID := db.id }
  { id := db.id + 1, store := mapSet db.store p.ID p }

/-- The method `AddPosts` (memdb.go, lines 44-53). -/
def AddPosts (db : DB) (posts : List Post) : DB :=
  posts.foldl addPost db

/-- The method `Count` (memdb.go, lines 69-73). -/
def Count (db : DB) : Except String Int :=
  .ok (db.store.length : Int)

end Memdb

end Gonews

namespace CommentsAPI

/-! ## `addComment` of the comment store's API -/

/-- What the handler wrote: the status and the body. -/
structure Reply where
  status : Nat
  body : String
  deriving DecidableEq, Repr

/-- The handler `addComment` (Comments/pkg/api/api.go, lines 95-109); `decoded`
is what decoding the request body gives and `insert` is `api.db.AddComment`,
which returns the identifier of the new row. -/
def addComment (decoded : Except String Comments.Comment)
    (insert : Comments.Comment → Except String Int) : Reply :=
  match decoded with
  | .error e => { status := 400, body := "Invalid request payload. Error: " ++ e ++ "\n" }
  | .ok c =>
    match insert c with
    | .error e => { status := 500, body := "Failed to add comment. Error: " ++ e ++ "\n" }
    | .ok _ => { status := 200, body := "" }

end CommentsAPI

namespace Comments

/-! ## The pops of the work-list loop, and the recursive build -/

/-- The variables of `buildCommentTree` when the loop `for len(stack) > 0` is
entered (line 129). -/
def start (comments : List Comment) : State :=
  let s0 : State := { comments := comments, childrenMap := fun _ => [], roots := [], stack := [] }
  let s1 := s0.comments.foldl partitionStep s0
  { s1 with stack := pushAll Ptr.root s1.roots.length [] }

/-- The number of pops the loop `for len(stack) > 0` makes before the stack is
empty; `none` when it is not empty after `fuel` pops. -/
def popCount : Nat → State → Option Nat
  | 0, s =>
    match s.stack with
    | [] => some 0
    | _ :: _ => none
  | fuel + 1, s =>
    match s.stack with
    | [] => some 0
    | p :: rest =>
      match loopBody s p rest with
      | none => none
      | some s1 =>
        match popCount fuel s1 with
        | none => none
        | some k => some (k + 1)

/-- The comment value held in a struct before the loop has touched it. -/
def Cell.value (c : Cell) : Comment :=
  match c.Replies with
  | .vals rs => .mk c.ID c.PostID c.ParentID c.Content c.AddTime rs
  | .children _ => .mk c.ID c.PostID c.ParentID c.Content c.AddTime []

/-- The loop `for _, child := range childrenMap[parent.ID]` of `attachReplies`
(lines 141-144): `replies` is `parent.Replies`, each child is appended and then
completed in place by the recursive call `f`. -/
def attachAll (f : Comment → Option Comment) : List Comment → List Comment →
    Option (List Comment)
  | [], replies => some replies
  | child :: rest, replies =>
    match f child with
    | none => none
    | some child' => attachAll f rest (replies ++ [child'])

/-- The closure `attachReplies` of the recursive method (lines 139-145, commented
out in the source), on comment values: the parent with its replies attached.
The fuel bounds the depth of the recursion. Slices are values here; an `append`
into spare capacity shared with another slice is not modelled. -/
def attachReplies (childrenMap : Int → List Comment) : Nat → Comment → Option Comment
  | 0, _ => none
  | fuel + 1, parent =>
    match attachAll (attachReplies childrenMap fuel) (childrenMap parent.ID) parent.Replies with
    | none => none
    | some rs => some (.mk parent.ID parent.PostID parent.ParentID parent.Content parent.AddTime rs)

/-- The function `buildCommentTree` with the recursive method in place of the
iterative one: the same first loop, then `attachReplies(&roots[i])` for every
root (lines 147-149). -/
def buildCommentTreeRecursive (fuel : Nat) (comments : List Comment) : Option (List Comment) :=
  let s0 : State := { comments := comments, childrenMap := fun _ => [], roots := [], stack := [] }
  let s1 := s0.comments.foldl partitionStep s0
  readAll (attachReplies (fun k => (s1.childrenMap k).map Cell.value) fuel)
    (s1.roots.map Cell.value)

end Comments

namespace Gonews

namespace Memdb

/-- The entries the store is to hold for the posts `ps` added from the
identifier `n` on: the posts in the order they were added, the first under the
key `n`, each with its `ID` set to its key. -/
def numbered : Int → List Post → List (Int × Post)
  | _, [] => []
  | n, p :: ps => (n, { p with ID := n }) :: numbered (n + 1) ps

end Memdb

end Gonews

namespace APIGateway

/-! ## Properties of the gateway's `addComment` -/

/-- C1: in `addComment` the write request to the comment store is issued only
after the moderation gate has answered 200. When the gate answers with any other
status no write request is sent; and whenever a write request is sent, the calls
of the run are the gate call, answered 200, followed by the store call. -/
theorem addComment_store_only_after_accept (env : Env) (reqID : String) :
    (∀ st, env.cenzorDo = .response st → st ≠ StatusOK →
      storeWrites (addComment env reqID).2 = 0) ∧
    (storeWrites (addComment env reqID).2 ≠ 0 →
      ∃ gate store, (addComment env reqID).2 = [gate, store] ∧
        gate.service = .cenzor ∧ gate.result = .response StatusOK ∧
        store.service = .comments) := by
  obtain ⟨rb, cn, cd, kn, kd⟩ := env
  constructor
  · intro st hst hne
    simp only at hst
    subst hst
    cases rb <;> cases cn <;> simp [addComment, storeWrites, hne]
  · cases rb <;> cases cn <;> cases cd <;> cases kn <;> cases kd <;>
      simp [addComment, storeWrites] <;> split_ifs <;> (try simp_all) <;>
      exact ⟨_, _, ⟨rfl, rfl⟩, rfl, rfl, rfl⟩

/-- Witness for C1: a run whose gate answers 400, and a run that stores. -/
theorem addComment_store_only_after_accept_witness :
    storeWrites (addComment ⟨.ok [1], none, .response 400, none, .response 200⟩ "7").2 = 0 ∧
    ∃ gate store,
      (addComment ⟨.ok [1], none, .response 200, none, .response 200⟩ "7").2 = [gate, store] ∧
        gate.service = .cenzor ∧ gate.result = .response StatusOK ∧
        store.service = .comments :=
  ⟨(addComment_store_only_after_accept ⟨.ok [1], none, .response 400, none, .response 200⟩
      "7").1 400 rfl (by decide),
   (addComment_store_only_after_accept ⟨.ok [1], none, .response 200, none, .response 200⟩
      "7").2 (by decide)⟩

/-- C2: when the request to the moderation gate fails at transport level,
`addComment` responds 400 Bad Request and sends no write request to the comment
store. -/
theorem addComment_gate_unreachable (env : Env) (reqID : String) (e : String)
    (h : env.cenzorDo = .transportErr e) :
    (addComment env reqID).1.status = StatusBadRequest ∧
      storeWrites (addComment env reqID).2 = 0 := by
  obtain ⟨rb, cn, cd, kn, kd⟩ := env
  simp only at h
  subst h
  cases rb <;> cases cn <;> simp [addComment, storeWrites, httpError]

/-- Witness for C2: the gate cannot be reached. -/
theorem addComment_gate_unreachable_witness :
    (addComment ⟨.ok [1], none, .transportErr "connection refused", none, .response 200⟩
        "7").1.status = StatusBadRequest ∧
      storeWrites (addComment ⟨.ok [1], none, .transportErr "connection refused", none,
        .response 200⟩ "7").2 = 0 :=
  addComment_gate_unreachable ⟨.ok [1], none, .transportErr "connection refused", none,
    .response 200⟩ "7" "connection refused" rfl

/-- C3: the gate accepts and the comment store answers 500: `addComment` responds
400 Bad Request, the very status it gives a comment the gate rejected, and not
500 Internal Server Error. -/
theorem addComment_store_failure_is_bad_request :
    (addComment ⟨.ok [1], none, .response 200, none, .response 500⟩ "7").1.status
        = StatusBadRequest ∧
    (addComment ⟨.ok [1], none, .response 200, none, .response 500⟩ "7").1.status
        ≠ StatusInternalServerError ∧
    (addComment ⟨.ok [1], none, .response 200, none, .response 500⟩ "7").1.status
        = (addComment ⟨.ok [1], none, .response 400, none, .response 200⟩ "7").1.status := by
  decide

/-- C4: `addComment` responds 200 OK if and only if the moderation gate answered
200 and the comment store answered 200. In terms of the collaborators: exactly
when the body was read, both requests could be built, and both services answered
200; a body read failure, a transport failure of either service and a non-200
answer of either service all give a non-200 response. -/
theorem addComment_ok_iff (env : Env) (reqID : String) :
    ((addComment env reqID).1.status = StatusOK ↔
      (∃ gate ∈ (addComment env reqID).2,
          gate.service = .cenzor ∧ gate.result = .response StatusOK) ∧
        ∃ store ∈ (addComment env reqID).2,
          store.service = .comments ∧ store.result = .response StatusOK) ∧
    ((addComment env reqID).1.status = StatusOK ↔
      (∃ body, env.readBody = .ok body) ∧ env.cenzorNewRequest = none ∧
        env.cenzorDo = .response StatusOK ∧ env.commentsNewRequest = none ∧
        env.commentsDo = .response StatusOK) := by
  obtain ⟨rb, cn, cd, kn, kd⟩ := env
  cases rb <;> cases cn <;> cases cd <;> cases kn <;> cases kd <;>
    simp [addComment, httpError, writeHeader, StatusOK, StatusBadRequest] <;>
    split_ifs <;> simp_all

end APIGateway

namespace Cenzor

/-! ## Properties of `censored` -/

/-- C5: for every string, `censored` returns false exactly when the lower-cased
string contains one of the three banned words as a substring, and true
otherwise; the empty string is accepted. -/
theorem censored_false_iff (lower : Char → Char) (s : String) :
    (censored lower s = false ↔
      "йцукен".data <:+: (ToLower lower s).data ∨ "ячсмит".data <:+: (ToLower lower s).data ∨
        "пролсд".data <:+: (ToLower lower s).data) ∧
    (censored lower s = true ↔
      ¬ ("йцукен".data <:+: (ToLower lower s).data ∨ "ячсмит".data <:+: (ToLower lower s).data ∨
        "пролсд".data <:+: (ToLower lower s).data)) ∧
    censored lower "" = true := by
  refine ⟨?_, ?_, ?_⟩
  · simp only [censored, swearWords, censoredLoop, Contains]
    by_cases h1 : "йцукен".data <:+: (ToLower lower s).data <;>
      by_cases h2 : "ячсмит".data <:+: (ToLower lower s).data <;>
      by_cases h3 : "пролсд".data <:+: (ToLower lower s).data <;> simp [h1, h2, h3]
  · simp only [censored, swearWords, censoredLoop, Contains]
    by_cases h1 : "йцукен".data <:+: (ToLower lower s).data <;>
      by_cases h2 : "ячсмит".data <:+: (ToLower lower s).data <;>
      by_cases h3 : "пролсд".data <:+: (ToLower lower s).data <;> simp [h1, h2, h3]
  · simp [censored, swearWords, censoredLoop, Contains, ToLower]

end Cenzor

namespace Comments

/-! ## Properties of `buildCommentTree` -/

mutual
theorem readCell_of_marked (m : Int → List Cell) :
    ∀ (t : Comment) (cell : Cell) (d : Nat), Marked m cell t → t.size ≤ d →
      readCell m d cell = some t
  | .mk i p q c t rs, cell, d, h, hd => by
    simp only [Marked] at h
    obtain ⟨hf, ⟨k, hr, hk⟩, hl⟩ := h
    subst hk
    simp only [Comment.size] at hd
    obtain ⟨d, rfl⟩ : ∃ e, d = e + 1 := ⟨d - 1, by omega⟩
    have := readCells_of_marked m rs (m k) d hl (by omega)
    simp only [Cell.fields, Fields.mk.injEq] at hf
    obtain ⟨h1, h2, h3, h4, h5⟩ := hf
    simp [readCell, hr, this, h1, h2, h3, h4, h5]
theorem readCells_of_marked (m : Int → List Cell) :
    ∀ (ts : List Comment) (cells : List Cell) (d : Nat), MarkedList m cells ts → sizeList ts ≤ d →
      readAll (readCell m d) cells = some ts
  | [], [], d, _, _ => by simp [readAll]
  | [], _ :: _, _, h, _ => by simp [MarkedList] at h
  | _ :: _, [], _, h, _ => by simp [MarkedList] at h
  | t :: ts, cell :: cells, d, h, hd => by
    simp only [MarkedList] at h
    simp only [sizeList] at hd
    have h1 := readCell_of_marked m t cell d h.1 (by omega)
    have h2 := readCells_of_marked m ts cells d h.2 (by omega)
    simp [readAll, h1, h2]
end

theorem cellLe_refl (a : Cell) : CellLe a a := Or.inl rfl

theorem cellLe_trans {a b c : Cell} (h1 : CellLe a b) (h2 : CellLe b c) : CellLe a c := by
  rcases h1 with rfl | rfl <;> rcases h2 with rfl | rfl
  · exact Or.inl rfl
  · exact Or.inr rfl
  · exact Or.inr rfl
  · exact Or.inr rfl

theorem cellLe_fields_eq {a b : Cell} (h : CellLe a b) : b.fields = a.fields := by
  rcases h with rfl | rfl <;> rfl

theorem cellLe_marked {a b : Cell} (h : CellLe a b) {k : Int}
    (hk : a.Replies = .children k) (hid : a.ID = k) : b.Replies = .children k := by
  rcases h with rfl | rfl
  · exact hk
  · simp [Cell.mark, hid]

theorem cellsLe_refl (l : List Cell) : List.Forall₂ CellLe l l :=
  List.forall₂_same.2 (fun a _ => cellLe_refl a)

theorem cellsLe_trans {l1 l2 l3 : List Cell} (h1 : List.Forall₂ CellLe l1 l2)
    (h2 : List.Forall₂ CellLe l2 l3) : List.Forall₂ CellLe l1 l3 := by
  induction h1 generalizing l3 with
  | nil => cases h2; exact List.Forall₂.nil
  | cons hab _ ih =>
    cases h2 with
    | cons hbc hrest => exact List.Forall₂.cons (cellLe_trans hab hbc) (ih hrest)

theorem cellsLe_fields {l1 l2 : List Cell} (h : List.Forall₂ CellLe l1 l2) :
    l2.map Cell.fields = l1.map Cell.fields := by
  induction h with
  | nil => rfl
  | cons hab _ ih => simp [cellLe_fields_eq hab, ih]

theorem cellsLe_getElem {l1 l2 : List Cell} (h : List.Forall₂ CellLe l1 l2) :
    ∀ (i : Nat) (a : Cell), l1[i]? = some a → ∃ b, l2[i]? = some b ∧ CellLe a b := by
  induction h with
  | nil => intro i a h; simp at h
  | cons hab _ ih =>
    intro i a h
    cases i with
    | zero => simp at h; subst h; exact ⟨_, by simp, hab⟩
    | succ i => simp at h; simpa using ih i a h

theorem heapLe_refl (m : Int → List Cell) : HeapLe m m := fun k => cellsLe_refl (m k)

theorem heapLe_trans {m1 m2 m3 : Int → List Cell} (h1 : HeapLe m1 m2) (h2 : HeapLe m2 m3) :
    HeapLe m1 m3 := fun k => cellsLe_trans (h1 k) (h2 k)

theorem stateLe_refl (s : State) : StateLe s s :=
  ⟨rfl, cellsLe_refl _, heapLe_refl _⟩

theorem stateLe_trans {s1 s2 s3 : State} (h1 : StateLe s1 s2) (h2 : StateLe s2 s3) :
    StateLe s1 s3 :=
  ⟨h2.comments.trans h1.comments, cellsLe_trans h1.roots h2.roots, heapLe_trans h1.heap h2.heap⟩

theorem setReplies_le : ∀ (cells : List Cell) (i : Nat) (c : Cell), cells[i]? = some c →
    List.Forall₂ CellLe cells (setReplies (.children c.ID) cells i) ∧
      (setReplies (.children c.ID) cells i)[i]? = some c.mark
  | [], i, c, h => by simp at h
  | a :: as, 0, c, h => by
    simp at h; subst h
    exact ⟨List.Forall₂.cons (Or.inr rfl) (cellsLe_refl _), by simp [setReplies, Cell.mark]⟩
  | a :: as, i + 1, c, h => by
    simp at h
    have := setReplies_le as i c h
    exact ⟨List.Forall₂.cons (cellLe_refl a) this.1, by simpa [setReplies] using this.2⟩

mutual
theorem marked_mono {m m' : Int → List Cell} (hm : HeapLe m m') :
    ∀ (t : Comment) (cell cell' : Cell), Marked m cell t → CellLe cell cell' → Marked m' cell' t
  | .mk i p q c t rs, cell, cell', h, hle => by
    simp only [Marked] at h ⊢
    obtain ⟨hf, ⟨k, hr, hk⟩, hl⟩ := h
    subst hk
    have hid : cell.ID = k := by simpa [Cell.fields] using congrArg Fields.ID hf
    exact ⟨(cellLe_fields_eq hle).trans hf, ⟨k, cellLe_marked hle hr hid, rfl⟩,
      markedList_mono hm rs (m k) (m' k) hl (hm k)⟩
theorem markedList_mono {m m' : Int → List Cell} (hm : HeapLe m m') :
    ∀ (ts : List Comment) (cells cells' : List Cell), MarkedList m cells ts →
      List.Forall₂ CellLe cells cells' → MarkedList m' cells' ts
  | [], [], cells', _, hle => by cases hle; simp [MarkedList]
  | [], _ :: _, _, h, _ => by simp [MarkedList] at h
  | _ :: _, [], _, h, _ => by simp [MarkedList] at h
  | t :: ts, cell :: cells, cells', h, hle => by
    cases hle with
    | cons hab hrest =>
      simp only [MarkedList] at h ⊢
      exact ⟨marked_mono hm t cell _ h.1 hab, markedList_mono hm ts cells _ h.2 hrest⟩
end

theorem load_ptrOf (s : State) (a : Option Int) (i : Nat) :
    s.load (ptrOf a i) = (s.arrOf a)[i]? := by
  cases a <;> rfl

theorem stateLe_arrOf {s s' : State} (h : StateLe s s') (a : Option Int) :
    List.Forall₂ CellLe (s.arrOf a) (s'.arrOf a) := by
  cases a with
  | none => exact h.roots
  | some k => exact h.heap k

theorem stateLe_load {s s' : State} (h : StateLe s s') {p : Ptr} {a : Cell}
    (hp : s.load p = some a) : ∃ b, s'.load p = some b ∧ CellLe a b := by
  cases p with
  | root i => exact cellsLe_getElem h.roots i a hp
  | reply k i => exact cellsLe_getElem (h.heap k) i a hp

theorem stateLe_base {s s' : State} (h : StateLe s s') {cs : List Comment}
    (hb : Base cs s.childrenMap) : Base cs s'.childrenMap :=
  fun k => (cellsLe_fields (h.heap k)).trans (hb k)

theorem storeReplies_le (s : State) (p : Ptr) (c : Cell) (hp : s.load p = some c) :
    StateLe s (s.storeReplies p (.children c.ID)) ∧
      (s.storeReplies p (.children c.ID)).load p = some c.mark := by
  cases p with
  | root i =>
    have := setReplies_le s.roots i c hp
    exact ⟨⟨rfl, this.1, heapLe_refl _⟩, this.2⟩
  | reply k i =>
    have := setReplies_le (s.childrenMap k) i c hp
    refine ⟨⟨rfl, cellsLe_refl _, ?_⟩, ?_⟩
    · intro k'
      by_cases hk : k' = k
      · subst hk; simpa [State.storeReplies] using this.1
      · simpa [State.storeReplies, Function.update_noteq hk] using cellsLe_refl _
    · simpa [State.storeReplies, State.load] using this.2

theorem pushAll_succ (mk : Nat → Ptr) (n : Nat) (st : List Ptr) :
    pushAll mk (n + 1) st = mk n :: pushAll mk n st := by
  simp [pushAll, List.range_succ, List.foldl_append]

theorem pushAll_zero (mk : Nat → Ptr) (st : List Ptr) : pushAll mk 0 st = st := rfl

theorem size_pos (t : Comment) : 0 < t.size := by
  cases t; simp [Comment.size]

theorem sizeList_append : ∀ (l1 l2 : List Comment), sizeList (l1 ++ l2) = sizeList l1 + sizeList l2
  | [], l2 => by simp [sizeList]
  | a :: l1, l2 => by simp [sizeList, sizeList_append l1 l2, Nat.add_assoc]

theorem sizeList_take_succ (ts : List Comment) (j : Nat) (t : Comment) (h : ts[j]? = some t) :
    sizeList (ts.take (j + 1)) = sizeList (ts.take j) + t.size := by
  rw [List.take_succ, sizeList_append, h]
  simp [sizeList]

theorem size_le_sizeList : ∀ (ts : List Comment) (t : Comment), t ∈ ts → t.size ≤ sizeList ts
  | [], t, h => by simp at h
  | a :: ts, t, h => by
    rcases List.mem_cons.1 h with rfl | h
    · simp [sizeList]
    · have := size_le_sizeList ts t h
      simp only [sizeList]; omega

theorem isRefList_length {cs : List Comment} :
    ∀ (fs : List Fields) (ts : List Comment), IsRefList cs fs ts → fs.length = ts.length
  | [], [], _ => rfl
  | [], _ :: _, h => by simp [IsRefList] at h
  | _ :: _, [], h => by simp [IsRefList] at h
  | _ :: fs, _ :: ts, h => by
    simp only [IsRefList] at h
    simp [isRefList_length fs ts h.2]

theorem isRefList_getElem {cs : List Comment} :
    ∀ (fs : List Fields) (ts : List Comment), IsRefList cs fs ts →
      ∀ (i : Nat) (f : Fields) (t : Comment), fs[i]? = some f → ts[i]? = some t → IsRefTree cs f t
  | [], _, _, i, f, t, hf, _ => by simp at hf
  | _ :: _, [], h, _, _, _, _, _ => by simp [IsRefList] at h
  | f0 :: fs, t0 :: ts, h, i, f, t, hf, ht => by
    simp only [IsRefList] at h
    cases i with
    | zero => simp at hf ht; subst hf; subst ht; exact h.1
    | succ i => simp at hf ht; exact isRefList_getElem fs ts h.2 i f t hf ht

theorem markedList_of_getElem (m : Int → List Cell) :
    ∀ (ts : List Comment) (cells : List Cell), cells.length = ts.length →
      (∀ (i : Nat) (t : Comment), ts[i]? = some t →
        ∃ cell, cells[i]? = some cell ∧ Marked m cell t) → MarkedList m cells ts
  | [], [], _, _ => by simp [MarkedList]
  | [], _ :: _, h, _ => by simp at h
  | _ :: _, [], h, _ => by simp at h
  | t :: ts, cell :: cells, hlen, h => by
    simp only [MarkedList]
    constructor
    · obtain ⟨c, hc, hm⟩ := h 0 t (by simp)
      simp at hc; subst hc; exact hm
    · apply markedList_of_getElem m ts cells (by simpa using hlen)
      intro i t' ht'
      simpa using h (i + 1) t' (by simpa using ht')

theorem loop_pushAll (cs : List Comment) (n : Nat) (htree : SubtreeDone cs n)
    (a : Option Int) (ts : List Comment) (hts : ∀ t ∈ ts, t.size ≤ n) :
    ∀ (j : Nat) (s : State) (rest : List Ptr) (fuel : Nat), j ≤ ts.length →
      Base cs s.childrenMap → IsRefList cs ((s.arrOf a).map Cell.fields) ts →
      ∃ s', loop (fuel + sizeList (ts.take j)) { s with stack := pushAll (ptrOf a) j rest }
          = loop fuel { s' with stack := rest } ∧
        StateLe s s' ∧
        ∀ (i : Nat) (t : Comment), i < j → ts[i]? = some t →
          ∃ cell', (s'.arrOf a)[i]? = some cell' ∧ Marked s'.childrenMap cell' t := by
  intro j
  induction j with
  | zero =>
    intro s rest fuel _ _ _
    exact ⟨s, by simp [sizeList, pushAll_zero], stateLe_refl s, fun i t hi _ => absurd hi (by omega)⟩
  | succ j ih =>
    intro s rest fuel hj hb href
    have hlen := isRefList_length _ _ href
    simp only [List.length_map] at hlen
    obtain ⟨t, ht⟩ : ∃ t, ts[j]? = some t := ⟨ts[j], by simp [List.getElem?_eq_getElem]⟩
    obtain ⟨cell, hcell⟩ : ∃ c, (s.arrOf a)[j]? = some c :=
      ⟨(s.arrOf a)[j], by simp [List.getElem?_eq_getElem]⟩
    have hreft : IsRefTree cs cell.fields t :=
      isRefList_getElem _ _ href j cell.fields t (by simp [hcell]) ht
    have htmem : t ∈ ts := List.getElem?_mem ht
    obtain ⟨s1, hloop1, hle1, cell1, hcell1, hmark1⟩ :=
      htree t s (ptrOf a j) cell (pushAll (ptrOf a) j rest) (fuel + sizeList (ts.take j))
        (hts t htmem) hb (by rw [load_ptrOf]; exact hcell) hreft
    have href1 : IsRefList cs ((s1.arrOf a).map Cell.fields) ts := by
      rw [cellsLe_fields (stateLe_arrOf hle1 a)]; exact href
    obtain ⟨s2, hloop2, hle2, hmark2⟩ := ih s1 rest fuel (by omega) (stateLe_base hle1 hb) href1
    refine ⟨s2, ?_, stateLe_trans hle1 hle2, ?_⟩
    · rw [sizeList_take_succ ts j t ht, pushAll_succ, ← Nat.add_assoc, hloop1, hloop2]
    · intro i t' hi ht'
      by_cases hij : i = j
      · subst hij
        rw [ht] at ht'; cases ht'
        rw [load_ptrOf] at hcell1
        obtain ⟨c2, hc2, hle⟩ := cellsLe_getElem (stateLe_arrOf hle2 a) i cell1 hcell1
        exact ⟨c2, hc2, marked_mono hle2.heap t cell1 c2 hmark1 hle⟩
      · exact hmark2 i t' (by omega) ht'

theorem subtreeDone (cs : List Comment) : ∀ n, SubtreeDone cs n := by
  intro n
  induction n with
  | zero =>
    intro t s p cell rest fuel hsz
    have := size_pos t
    omega
  | succ n ih =>
    intro t s p cell rest fuel hsz hb hp href
    obtain ⟨i, po, q, c, tm, rs⟩ := t
    simp only [IsRefTree] at href
    obtain ⟨hf, hrs⟩ := href
    simp only [Comment.size] at hsz
    have hid : cell.ID = i := by simpa [Cell.fields] using (congrArg Fields.ID hf).symm
    obtain ⟨hle0, hload0⟩ := storeReplies_le s p cell hp
    rw [hid] at hle0 hload0
    have hb0 := stateLe_base hle0 hb
    have href0 : IsRefList cs (((s.storeReplies p (.children i)).arrOf (some i)).map Cell.fields) rs := by
      show IsRefList cs (((s.storeReplies p (.children i)).childrenMap i).map Cell.fields) rs
      rw [hb0 i]; exact hrs
    have hlen := isRefList_length _ _ href0
    simp only [List.length_map] at hlen
    have hts : ∀ t ∈ rs, t.size ≤ n := fun t ht => by
      have := size_le_sizeList rs t ht
      omega
    obtain ⟨s2, hloop2, hle2, hmark2⟩ :=
      loop_pushAll cs n ih (some i) rs hts rs.length (s.storeReplies p (.children i)) rest fuel
        (Nat.le_refl _) hb0 href0
    obtain ⟨cell2, hcell2, hcle⟩ := stateLe_load hle2 hload0
    refine ⟨s2, ?_, stateLe_trans hle0 hle2, cell2, hcell2, ?_⟩
    · rw [List.take_length] at hloop2
      rw [← hloop2]
      have : fuel + (Comment.mk i po q c tm rs).size = (fuel + sizeList rs) + 1 := by
        simp only [Comment.size]; omega
      rw [this]
      have hp' : ({ s with stack := p :: rest } : State).load p = some cell := by
        cases p <;> exact hp
      simp only [loop, loopBody, hp', hid]
      have hst : ({ s with stack := p :: rest } : State).storeReplies p (.children i)
          = { s.storeReplies p (.children i) with stack := p :: rest } := by
        cases p <;> rfl
      rw [hst]
      show loop (fuel + sizeList rs) { s.storeReplies p (.children i) with
          stack := pushAll (Ptr.reply i) ((s.storeReplies p (.children i)).childrenMap i).length rest } = _
      have hl2 : ((s.storeReplies p (.children i)).childrenMap i).length = rs.length := hlen
      rw [hl2]
      rfl
    · simp only [Marked]
      refine ⟨?_, ⟨i, ?_, rfl⟩, ?_⟩
      · rw [cellLe_fields_eq hcle]; exact hf.symm
      · exact cellLe_marked hcle (by simp [Cell.mark, hid]) hid
      · apply markedList_of_getElem
        · have := (cellsLe_fields (hle2.heap i))
          have h3 := congrArg List.length this
          simp only [List.length_map] at h3
          rw [h3]; exact hlen
        · intro j t ht
          have hj : j < rs.length := by
            by_contra hcon
            rw [List.getElem?_eq_none (by omega)] at ht
            cases ht
          exact hmark2 j t hj ht

theorem foldl_partitionStep : ∀ (cs : List Comment) (s : State),
    (cs.foldl partitionStep s).comments = s.comments ∧
    (cs.foldl partitionStep s).stack = s.stack ∧
    (cs.foldl partitionStep s).roots = s.roots ++ (rootsOf cs).map cellOf ∧
    ∀ k, (cs.foldl partitionStep s).childrenMap k = s.childrenMap k ++ (childrenOf cs k).map cellOf
  | [], s => by simp [rootsOf, childrenOf]
  | c :: cs, s => by
    obtain ⟨h1, h2, h3, h4⟩ := foldl_partitionStep cs (partitionStep s c)
    simp only [List.foldl_cons]
    refine ⟨?_, ?_, ?_, ?_⟩
    · rw [h1]; unfold partitionStep; split <;> rfl
    · rw [h2]; unfold partitionStep; split <;> rfl
    · rw [h3]
      by_cases hc : c.ParentID = 0
      · simp [partitionStep, hc, rootsOf, List.filter_cons]
      · simp [partitionStep, hc, rootsOf, List.filter_cons]
    · intro k
      rw [h4 k]
      by_cases hc : c.ParentID = 0
      · simp [partitionStep, hc, childrenOf, List.filter_cons]
      · by_cases hk : c.ParentID = k
        · subst hk
          simp [partitionStep, hc, childrenOf, List.filter_cons]
        · have hk' : k ≠ c.ParentID := fun h => hk h.symm
          simp [partitionStep, hc, childrenOf, List.filter_cons, hk, Function.update_noteq hk']

theorem cellOf_fields (c : Comment) : (cellOf c).fields = c.fields := by
  cases c; rfl

theorem loop_nil (fuel : Nat) (s : State) (h : s.stack = []) : loop fuel s = some s := by
  cases fuel <;> simp [loop, h]

/-- When the reference forest exists, `run` returns it once the fuel covers its size. -/
theorem run_of_isRef (cs : List Comment) (forest : List Comment)
    (href : IsRefForest cs forest) (fuel : Nat)
    (hfuel : sizeList forest ≤ fuel) :
    ∃ s, run fuel cs = some (s, forest) ∧ s.comments = cs := by
  obtain ⟨h1, _, h3, h4⟩ := foldl_partitionStep cs
    { comments := cs, childrenMap := fun _ => [], roots := [], stack := [] }
  simp only [List.nil_append] at h1 h3 h4
  generalize hs1 : cs.foldl partitionStep
    { comments := cs, childrenMap := fun _ => [], roots := [], stack := [] } = s1 at h1 h3 h4
  have hb : Base cs s1.childrenMap := fun k => by
    rw [h4 k, List.map_map]
    exact List.map_congr_left (fun c _ => cellOf_fields c)
  have hr : IsRefList cs ((s1.arrOf none).map Cell.fields) forest := by
    show IsRefList cs (s1.roots.map Cell.fields) forest
    rw [h3, List.map_map]
    have : (rootsOf cs).map (Cell.fields ∘ cellOf) = (rootsOf cs).map Comment.fields :=
      List.map_congr_left (fun c _ => cellOf_fields c)
    rw [this]; exact href
  have hlen := isRefList_length _ _ hr
  simp only [List.length_map] at hlen
  obtain ⟨e, rfl⟩ : ∃ e, fuel = e + sizeList forest := ⟨fuel - sizeList forest, by omega⟩
  obtain ⟨s2, hloop, hle, hmark⟩ :=
    loop_pushAll cs (sizeList forest) (subtreeDone cs _) none forest
      (fun t ht => size_le_sizeList forest t ht) forest.length s1 [] e (Nat.le_refl _) hb hr
  rw [List.take_length] at hloop
  have hml : MarkedList s2.childrenMap s2.roots forest := by
    apply markedList_of_getElem
    · have h5 := congrArg List.length (cellsLe_fields hle.roots)
      simp only [List.length_map] at h5
      rw [h5]; exact hlen
    · intro j t ht
      have hj : j < forest.length := by
        by_contra hcon
        rw [List.getElem?_eq_none (by omega)] at ht
        cases ht
      exact hmark j t hj ht
  have hread := readCells_of_marked s2.childrenMap forest s2.roots (e + sizeList forest) hml
    (by omega)
  refine ⟨{ s2 with stack := [] }, ?_, ?_⟩
  · have hlen' : s1.roots.length = forest.length := hlen
    simp only [run, hs1]
    rw [hlen']
    have : ptrOf none = Ptr.root := rfl
    rw [this] at hloop
    rw [hloop, loop_nil e _ rfl]
    simp only [hread]
  · show s2.comments = cs
    rw [hle.comments]; exact h1

theorem fields_ID (c : Comment) : c.fields.ID = c.ID := by cases c; rfl
theorem distinctIDs_eq {cs : List Comment} (h : DistinctIDs cs) {x y : Comment}
    (hx : x ∈ cs) (hy : y ∈ cs) (hxy : x.ID = y.ID) : x = y :=
  List.inj_on_of_nodup_map h hx hy hxy

theorem chain_head_mem {cs : List Comment} {a : Int} {l : List Int} (h : Chain cs (a :: l)) :
    ∃ x ∈ cs, x.ID = a := by
  cases h with
  | root r hr _ => exact ⟨r, hr, rfl⟩
  | reply x l hx _ _ => exact ⟨x, hx, rfl⟩

theorem chain_subset {cs : List Comment} {l : List Int} (h : Chain cs l) :
    ∀ a ∈ l, a ∈ cs.map Comment.ID := by
  induction h with
  | root r hr _ =>
    intro a ha
    simp only [List.mem_singleton] at ha
    subst ha
    exact List.mem_map_of_mem _ hr
  | reply x l hx _ _ ih =>
    intro a ha
    rcases List.mem_cons.1 ha with rfl | ha
    · exact List.mem_map_of_mem _ hx
    · exact ih a ha

theorem chain_parent_mem_tail {cs : List Comment} (hd : DistinctIDs cs) {l : List Int}
    (h : Chain cs l) : ∀ a ∈ l, ∀ y ∈ cs, y.ID = a → y.ParentID ≠ 0 → y.ParentID ∈ l.tail := by
  induction h with
  | root r hr hr0 =>
    intro a ha y hy hya hy0
    simp only [List.mem_singleton] at ha
    subst ha
    have : y = r := distinctIDs_eq hd hy hr hya
    subst this
    exact absurd hr0 hy0
  | reply x l hx _ _ ih =>
    intro a ha y hy hya hy0
    rcases List.mem_cons.1 ha with rfl | ha
    · have : y = x := distinctIDs_eq hd hy hx hya
      subst this
      simp
    · have := ih a ha y hy hya hy0
      simp only [List.tail_cons] at this ⊢
      exact List.mem_cons_of_mem _ this

theorem chain_nodup {cs : List Comment} (hd : DistinctIDs cs) {l : List Int} (h : Chain cs l) :
    l.Nodup := by
  induction h with
  | root r _ _ => simp
  | reply x l hx hx0 hl ih =>
    refine List.nodup_cons.2 ⟨?_, ih⟩
    intro hmem
    have := chain_parent_mem_tail hd hl x.ID hmem x hx rfl hx0
    simp only [List.tail_cons] at this
    exact (List.nodup_cons.1 ih).1 this

theorem chain_length_le {cs : List Comment} (hd : DistinctIDs cs) {l : List Int} (h : Chain cs l) :
    l.length ≤ cs.length := by
  have h1 := (List.subperm_of_subset (chain_nodup hd h) (chain_subset h)).length_le
  simpa using h1

theorem chain_unique {cs : List Comment} (hd : DistinctIDs cs) {l : List Int} (h : Chain cs l) :
    ∀ {l' : List Int}, Chain cs l' → l.head? = l'.head? → l = l' := by
  induction h with
  | root r hr hr0 =>
    intro l' h' hh
    cases h' with
    | root r' hr' _ => simpa using hh
    | reply x l hx hx0 _ =>
      simp only [List.head?_cons, Option.some.injEq] at hh
      have : r = x := distinctIDs_eq hd hr hx hh
      subst this
      exact absurd hr0 hx0
  | reply x l hx hx0 _ ih =>
    intro l' h' hh
    cases h' with
    | root r' hr' hr0' =>
      simp only [List.head?_cons, Option.some.injEq] at hh
      have : x = r' := distinctIDs_eq hd hx hr' hh
      subst this
      exact absurd hr0' hx0
    | reply x' l' hx' _ hl' =>
      simp only [List.head?_cons, Option.some.injEq] at hh
      have : x = x' := distinctIDs_eq hd hx hx' hh
      subst this
      have := ih hl' rfl
      simp only [List.cons.injEq, true_and] at this
      simp [this]

theorem chain_reach {cs : List Comment} (hd : DistinctIDs cs) {l : List Int} (h : Chain cs l) :
    ∀ y ∈ cs, l.head? = some y.ID → Reach cs y := by
  induction h with
  | root r hr hr0 =>
    intro y hy hh
    simp only [List.head?_cons, Option.some.injEq] at hh
    have : r = y := distinctIDs_eq hd hr hy hh
    subst this
    exact Reach.root r hr hr0
  | reply x l hx hx0 hl ih =>
    intro y hy hh
    simp only [List.head?_cons, Option.some.injEq] at hh
    have : x = y := distinctIDs_eq hd hx hy hh
    subst this
    obtain ⟨p, hp, hpid⟩ := chain_head_mem hl
    exact Reach.reply x p hx hx0 hp hpid (ih p hp (by simp [hpid]))

theorem mem_childrenOf {cs : List Comment} {k : Int} {x : Comment} :
    x ∈ childrenOf cs k ↔ x ∈ cs ∧ x.ParentID ≠ 0 ∧ x.ParentID = k := by
  simp [childrenOf]

theorem mem_rootsOf {cs : List Comment} {x : Comment} :
    x ∈ rootsOf cs ↔ x ∈ cs ∧ x.ParentID = 0 := by
  simp [rootsOf]

theorem isRefList_exists (cs : List Comment) : ∀ (xs : List Comment),
    (∀ x ∈ xs, ∃ t, IsRefTree cs x.fields t) → ∃ ts, IsRefList cs (xs.map Comment.fields) ts
  | [], _ => ⟨[], by simp [IsRefList]⟩
  | x :: xs, h => by
    obtain ⟨t, ht⟩ := h x (List.mem_cons_self _ _)
    obtain ⟨ts, hts⟩ := isRefList_exists cs xs (fun y hy => h y (List.mem_cons_of_mem _ hy))
    exact ⟨t :: ts, by simp [IsRefList, ht, hts]⟩

theorem isRefTree_exists {cs : List Comment} (hd : DistinctIDs cs) :
    ∀ (d : Nat) (c : Comment) (l : List Int), c ∈ cs → Chain cs (c.ID :: l) →
      cs.length ≤ l.length + 1 + d → ∃ t, IsRefTree cs c.fields t := by
  intro d
  induction d with
  | zero =>
    intro c l _ hch hlen
    have hkids : ∀ x ∈ childrenOf cs c.ID, ∃ t, IsRefTree cs x.fields t := by
      intro x hx
      obtain ⟨hxcs, hx0, hxp⟩ := mem_childrenOf.1 hx
      have hch' : Chain cs (x.ID :: x.ParentID :: l) := Chain.reply x l hxcs hx0 (hxp ▸ hch)
      have := chain_length_le hd hch'
      simp only [List.length_cons] at this
      omega
    obtain ⟨ts, hts⟩ := isRefList_exists cs _ hkids
    obtain ⟨i, p, q, co, tm, rs⟩ := c
    exact ⟨.mk i p q co tm ts, by simpa [IsRefTree, Comment.fields, Comment.ID] using hts⟩
  | succ d ih =>
    intro c l _ hch hlen
    have hkids : ∀ x ∈ childrenOf cs c.ID, ∃ t, IsRefTree cs x.fields t := by
      intro x hx
      obtain ⟨hxcs, hx0, hxp⟩ := mem_childrenOf.1 hx
      have hch' : Chain cs (x.ID :: c.ID :: l) := by
        rw [← hxp]; exact Chain.reply x l hxcs hx0 (hxp ▸ hch)
      exact ih x (c.ID :: l) hxcs hch' (by simp only [List.length_cons]; omega)
    obtain ⟨ts, hts⟩ := isRefList_exists cs _ hkids
    obtain ⟨i, p, q, co, tm, rs⟩ := c
    exact ⟨.mk i p q co tm ts, by simpa [IsRefTree, Comment.fields, Comment.ID] using hts⟩

/-- With pairwise distinct identifiers the reference forest exists. -/
theorem isRefForest_exists {cs : List Comment} (hd : DistinctIDs cs) :
    ∃ forest, IsRefForest cs forest := by
  apply isRefList_exists
  intro x hx
  obtain ⟨hxcs, hx0⟩ := mem_rootsOf.1 hx
  exact isRefTree_exists hd cs.length x [] hxcs (Chain.root x hxcs hx0) (by omega)

theorem below_mono {cs : List Comment} {b1 b2 : List Int} {f : Fields} (h : Below cs b2 f)
    (hb : b1 <:+ b2) : Below cs b1 f := by
  obtain ⟨hy, l, hl, hh, hs⟩ := h
  exact ⟨hy, l, hl, hh, hb.trans hs⟩

theorem below_disjoint {cs : List Comment} (hd : DistinctIDs cs) {a b : Int} {l : List Int}
    {f g : Fields} (hf : Below cs (a :: l) f) (hg : Below cs (b :: l) g) (hfg : f.ID = g.ID) :
    a = b := by
  obtain ⟨_, l1, hl1, hh1, hs1⟩ := hf
  obtain ⟨_, l2, hl2, hh2, hs2⟩ := hg
  have : l1 = l2 := chain_unique hd hl1 hl2 (by rw [hh1, hh2, hfg])
  subst this
  rcases List.suffix_or_suffix_of_suffix hs1 hs2 with h | h
  · have := h.eq_of_length (by simp)
    simpa using this
  · have := h.eq_of_length (by simp)
    simp only [List.cons.injEq] at this
    exact this.1.symm

mutual
theorem nodes_below {cs : List Comment} (hd : DistinctIDs cs) :
    ∀ (t : Comment) (c : Comment) (l : List Int), c ∈ cs → Chain cs (c.ID :: l) →
      IsRefTree cs c.fields t →
      (t.nodes.map Fields.ID).Nodup ∧ ∀ f ∈ t.nodes, Below cs (c.ID :: l) f
  | .mk i p q co tm rs, c, l, hc, hch, href => by
    simp only [IsRefTree] at href
    obtain ⟨hf, hrs⟩ := href
    have hid : i = c.ID := by rw [← fields_ID, ← hf]
    subst hid
    have hx : ∀ x ∈ childrenOf cs c.ID, x ∈ cs ∧ Chain cs (x.ID :: c.ID :: l) := by
      intro x hx
      obtain ⟨hxcs, hx0, hxp⟩ := mem_childrenOf.1 hx
      refine ⟨hxcs, ?_⟩
      rw [← hxp]; exact Chain.reply x l hxcs hx0 (hxp ▸ hch)
    have hnd : ((childrenOf cs c.ID).map Comment.ID).Nodup :=
      List.Nodup.sublist (List.Sublist.map _ (List.filter_sublist _)) hd
    obtain ⟨h1, h2⟩ := nodesList_below hd rs (childrenOf cs c.ID) (c.ID :: l) hx hnd hrs
    have hroot : Below cs (c.ID :: l) ⟨c.ID, p, q, co, tm⟩ :=
      ⟨⟨c, hc, hf.symm⟩, c.ID :: l, hch, rfl, List.suffix_refl _⟩
    simp only [Comment.nodes, List.map_cons, List.nodup_cons, List.mem_cons]
    refine ⟨⟨?_, h1⟩, ?_⟩
    · intro hmem
      obtain ⟨g, hg, hgid⟩ := List.mem_map.1 hmem
      obtain ⟨x, _, hbx⟩ := h2 g hg
      obtain ⟨_, l1, hl1, hh1, hs1⟩ := hbx
      have hu : l1 = c.ID :: l := chain_unique hd hl1 hch (by simp [hh1, hgid])
      subst hu
      have := hs1.length_le
      simp at this
    · intro f hfm
      rcases hfm with rfl | hfm
      · exact hroot
      · obtain ⟨x, _, hbx⟩ := h2 f hfm
        exact below_mono hbx (List.suffix_cons _ _)
theorem nodesList_below {cs : List Comment} (hd : DistinctIDs cs) :
    ∀ (ts : List Comment) (xs : List Comment) (l : List Int),
      (∀ x ∈ xs, x ∈ cs ∧ Chain cs (x.ID :: l)) → (xs.map Comment.ID).Nodup →
      IsRefList cs (xs.map Comment.fields) ts →
      ((nodesList ts).map Fields.ID).Nodup ∧
        ∀ f ∈ nodesList ts, ∃ x ∈ xs, Below cs (x.ID :: l) f
  | [], [], _, _, _, _ => by simp [nodesList]
  | [], _ :: _, _, _, _, h => by simp [IsRefList] at h
  | _ :: _, [], _, _, _, h => by simp [IsRefList] at h
  | t :: ts, x :: xs, l, hx, hnd, href => by
    simp only [List.map_cons, IsRefList] at href
    obtain ⟨ht, hts⟩ := href
    obtain ⟨hxcs, hxch⟩ := hx x (List.mem_cons_self _ _)
    simp only [List.map_cons, List.nodup_cons] at hnd
    obtain ⟨h1, h2⟩ := nodes_below hd t x l hxcs hxch ht
    obtain ⟨h3, h4⟩ := nodesList_below hd ts xs l
      (fun y hy => hx y (List.mem_cons_of_mem _ hy)) hnd.2 hts
    simp only [nodesList, List.map_append]
    refine ⟨List.nodup_append.2 ⟨h1, h3, ?_⟩, ?_⟩
    · intro a ha1 ha2
      obtain ⟨f, hf, hfa⟩ := List.mem_map.1 ha1
      obtain ⟨g, hg, hga⟩ := List.mem_map.1 ha2
      obtain ⟨y, hy, hby⟩ := h4 g hg
      have := below_disjoint hd (h2 f hf) hby (hfa.trans hga.symm)
      exact hnd.1 (this ▸ List.mem_map_of_mem _ hy)
    · intro f hf
      rcases List.mem_append.1 hf with hf | hf
      · exact ⟨x, List.mem_cons_self _ _, h2 f hf⟩
      · obtain ⟨y, hy, hby⟩ := h4 f hf
        exact ⟨y, List.mem_cons_of_mem _ hy, hby⟩
end

theorem isRefTree_root_mem {cs : List Comment} {g : Fields} {t : Comment}
    (h : IsRefTree cs g t) : g ∈ t.nodes := by
  obtain ⟨i, p, q, co, tm, rs⟩ := t
  simp only [IsRefTree] at h
  simp [Comment.nodes, h.1]

theorem isRefList_roots_mem {cs : List Comment} :
    ∀ (gs : List Fields) (ts : List Comment), IsRefList cs gs ts → ∀ g ∈ gs, g ∈ nodesList ts
  | [], _, _, g, hg => by simp at hg
  | _ :: _, [], h, _, _ => by simp [IsRefList] at h
  | g0 :: gs, t :: ts, h, g, hg => by
    simp only [IsRefList] at h
    simp only [nodesList, List.mem_append]
    rcases List.mem_cons.1 hg with rfl | hg
    · exact Or.inl (isRefTree_root_mem h.1)
    · exact Or.inr (isRefList_roots_mem gs ts h.2 g hg)

mutual
theorem nodes_children {cs : List Comment} :
    ∀ (t : Comment) (g : Fields), IsRefTree cs g t → ∀ f ∈ t.nodes,
      ∀ y ∈ childrenOf cs f.ID, y.fields ∈ t.nodes
  | .mk i p q co tm rs, g, h, f, hf, y, hy => by
    simp only [IsRefTree] at h
    simp only [Comment.nodes, List.mem_cons] at hf ⊢
    rcases hf with rfl | hf
    · exact Or.inr (isRefList_roots_mem _ rs h.2 y.fields (List.mem_map_of_mem _ hy))
    · exact Or.inr (nodesList_children rs _ h.2 f hf y hy)
theorem nodesList_children {cs : List Comment} :
    ∀ (ts : List Comment) (gs : List Fields), IsRefList cs gs ts → ∀ f ∈ nodesList ts,
      ∀ y ∈ childrenOf cs f.ID, y.fields ∈ nodesList ts
  | [], _, _, f, hf, _, _ => by simp [nodesList] at hf
  | _ :: _, [], h, _, _, _, _ => by simp [IsRefList] at h
  | t :: ts, g :: gs, h, f, hf, y, hy => by
    simp only [IsRefList] at h
    simp only [nodesList, List.mem_append] at hf ⊢
    rcases hf with hf | hf
    · exact Or.inl (nodes_children t g h.1 f hf y hy)
    · exact Or.inr (nodesList_children ts gs h.2 f hf y hy)
end

mutual
theorem size_eq_placed : ∀ (t : Comment), t.size = 1 + t.placed
  | .mk _ _ _ _ _ rs => by
    simp only [Comment.size, Comment.placed, sizeList_eq_placed rs]
theorem sizeList_eq_placed : ∀ (ts : List Comment), sizeList ts = ts.length + placedList ts
  | [] => rfl
  | t :: ts => by
    simp only [sizeList, placedList, List.length_cons, size_eq_placed t, sizeList_eq_placed ts]
    omega
end

mutual
theorem nodes_length : ∀ (t : Comment), t.nodes.length = t.size
  | .mk _ _ _ _ _ rs => by
    simp only [Comment.nodes, Comment.size, List.length_cons, nodesList_length rs]
    omega
theorem nodesList_length : ∀ (ts : List Comment), (nodesList ts).length = sizeList ts
  | [] => rfl
  | t :: ts => by
    simp only [nodesList, sizeList, List.length_append, nodes_length t, nodesList_length ts]
end

theorem loop_comments : ∀ (fuel : Nat) (s r : State), loop fuel s = some r →
    r.comments = s.comments
  | 0, s, r, h => by
    unfold loop at h
    split at h
    · cases h; rfl
    · cases h
  | fuel + 1, s, r, h => by
    unfold loop at h
    split at h
    · cases h; rfl
    · rename_i p rest _
      unfold loopBody at h
      split at h
      · cases h
      · rename_i heq
        split at heq
        · cases heq
        · cases heq
          have := loop_comments fuel _ r h
          rw [this]
          cases p <;> rfl

theorem loop_mono : ∀ (fuel : Nat) (s r : State), loop fuel s = some r →
    loop (fuel + 1) s = some r
  | 0, s, r, h => by
    unfold loop at h
    split at h
    · rename_i hst
      cases h
      exact loop_nil _ _ hst
    · cases h
  | fuel + 1, s, r, h => by
    unfold loop at h ⊢
    split at h
    · exact h
    · split at h
      · cases h
      · rename_i s1 heq
        exact loop_mono fuel s1 r h

theorem readAll_mono {α β : Type} {f g : α → Option β}
    (hfg : ∀ a b, f a = some b → g a = some b) :
    ∀ (l : List α) (bs : List β), readAll f l = some bs → readAll g l = some bs
  | [], bs, h => by simpa [readAll] using h
  | a :: l, bs, h => by
    unfold readAll at h ⊢
    split at h
    · cases h
    · rename_i b hb
      split at h
      · cases h
      · rename_i bs' hbs
        simp only [hfg a b hb, readAll_mono hfg l bs' hbs]
        exact h

theorem readCell_mono (m : Int → List Cell) : ∀ (d : Nat) (c : Cell) (t : Comment),
    readCell m d c = some t → readCell m (d + 1) c = some t
  | 0, c, t, h => by simp [readCell] at h
  | d + 1, c, t, h => by
    unfold readCell at h ⊢
    split at h
    · exact h
    · split at h
      · cases h
      · rename_i rs hrs
        simp only [readAll_mono (readCell_mono m d) _ rs hrs]
        exact h

theorem run_mono (fuel : Nat) (cs : List Comment) (r : State × List Comment)
    (h : run fuel cs = some r) : run (fuel + 1) cs = some r := by
  unfold run at h ⊢
  simp only at h ⊢
  split at h
  · cases h
  · rename_i s3 hs3
    simp only [loop_mono fuel _ s3 hs3]
    split at h
    · cases h
    · rename_i forest hf
      simp only [readAll_mono (readCell_mono s3.childrenMap fuel) _ forest hf]
      exact h

theorem run_mono_add (fuel : Nat) (cs : List Comment) (r : State × List Comment)
    (h : run fuel cs = some r) : ∀ k, run (fuel + k) cs = some r
  | 0 => h
  | k + 1 => run_mono _ cs r (run_mono_add fuel cs r h k)

/-- The result of `run` does not depend on the fuel, once the fuel is enough. -/
theorem run_unique {f1 f2 : Nat} {cs : List Comment} {r1 r2 : State × List Comment}
    (h1 : run f1 cs = some r1) (h2 : run f2 cs = some r2) : r1 = r2 := by
  have e1 := run_mono_add f1 cs r1 h1 f2
  have e2 := run_mono_add f2 cs r2 h2 f1
  rw [Nat.add_comm] at e2
  rw [e1] at e2
  exact Option.some.inj e2

theorem run_comments {fuel : Nat} {cs : List Comment} {r : State × List Comment}
    (h : run fuel cs = some r) : r.1.comments = cs := by
  unfold run at h
  simp only at h
  split at h
  · cases h
  · rename_i s3 hs3
    split at h
    · cases h
    · cases h
      rw [loop_comments _ _ _ hs3]
      exact (foldl_partitionStep cs _).1

theorem buildCommentTree_eq {fuel : Nat} {cs : List Comment} {forest : List Comment} :
    buildCommentTree fuel cs = some forest ↔ ∃ s, run fuel cs = some (s, forest) := by
  unfold buildCommentTree
  cases run fuel cs with
  | none => simp
  | some r => obtain ⟨s, f⟩ := r; simp

theorem buildCommentTree_unique {f1 f2 : Nat} {cs : List Comment} {r1 r2 : List Comment}
    (h1 : buildCommentTree f1 cs = some r1) (h2 : buildCommentTree f2 cs = some r2) : r1 = r2 := by
  obtain ⟨s1, e1⟩ := buildCommentTree_eq.1 h1
  obtain ⟨s2, e2⟩ := buildCommentTree_eq.1 h2
  exact congrArg Prod.snd (run_unique e1 e2)

/-- What `buildCommentTree` does on a list with pairwise distinct identifiers. -/
theorem build_distinct {cs : List Comment} (hd : DistinctIDs cs) :
    ∃ forest, IsRefForest cs forest ∧
      (∀ fuel, cs.length ≤ fuel → buildCommentTree fuel cs = some forest) ∧
      (nodesList forest).Nodup ∧ sizeList forest ≤ cs.length ∧
      (∀ f ∈ nodesList forest, ∃ y ∈ cs, y.fields = f) ∧
      ∀ c ∈ cs, (c.fields ∈ nodesList forest ↔ Reach cs c) := by
  obtain ⟨forest, href⟩ := isRefForest_exists hd
  have hroots : ∀ x ∈ rootsOf cs, x ∈ cs ∧ Chain cs (x.ID :: []) := fun x hx =>
    ⟨(mem_rootsOf.1 hx).1, Chain.root x (mem_rootsOf.1 hx).1 (mem_rootsOf.1 hx).2⟩
  have hnd : ((rootsOf cs).map Comment.ID).Nodup :=
    List.Nodup.sublist (List.Sublist.map _ (List.filter_sublist _)) hd
  obtain ⟨h1, h2⟩ := nodesList_below hd forest (rootsOf cs) [] hroots hnd href
  have hsub : ∀ a ∈ (nodesList forest).map Fields.ID, a ∈ cs.map Comment.ID := by
    intro a ha
    obtain ⟨f, hf, rfl⟩ := List.mem_map.1 ha
    obtain ⟨_, _, ⟨y, hy, hyf⟩, _⟩ := h2 f hf
    rw [← hyf, fields_ID]
    exact List.mem_map_of_mem _ hy
  have hsize : sizeList forest ≤ cs.length := by
    have := (List.subperm_of_subset h1 hsub).length_le
    simpa [nodesList_length] using this
  refine ⟨forest, href, ?_, List.Nodup.of_map _ h1, hsize, ?_, ?_⟩
  · intro fuel hfuel
    obtain ⟨s, hs, _⟩ := run_of_isRef cs forest href fuel (by omega)
    exact buildCommentTree_eq.2 ⟨s, hs⟩
  · intro f hf
    obtain ⟨_, _, hy, _⟩ := h2 f hf
    exact hy
  · intro c hc
    constructor
    · intro hmem
      obtain ⟨_, _, _, l, hl, hh, _⟩ := h2 c.fields hmem
      exact chain_reach hd hl c hc (by rw [hh, fields_ID])
    · intro hr
      induction hr with
      | root c hc hc0 =>
        exact isRefList_roots_mem _ _ href _ (List.mem_map_of_mem _ (mem_rootsOf.2 ⟨hc, hc0⟩))
      | reply c p hc hc0 hp hpc _ ih =>
        exact nodesList_children forest _ href p.fields (ih hp) c
          (mem_childrenOf.2 ⟨hc, hc0, by rw [fields_ID]; exact hpc.symm⟩)

theorem isRefList_map_fields {cs : List Comment} :
    ∀ (gs : List Fields) (ts : List Comment), IsRefList cs gs ts → ts.map Comment.fields = gs
  | [], [], _ => rfl
  | [], _ :: _, h => by simp [IsRefList] at h
  | _ :: _, [], h => by simp [IsRefList] at h
  | g :: gs, (.mk i p q c t rs) :: ts, h => by
    simp only [IsRefList, IsRefTree] at h
    simp [Comment.fields, h.1.1, isRefList_map_fields gs ts h.2]

theorem descends_mem {cs : List Comment} {c d : Comment} (h : Descends cs c d) : d ∈ cs := by
  cases h with
  | reply _ hd _ _ => exact hd
  | step _ _ hd _ _ _ => exact hd

theorem descends_not_reach {cs : List Comment} (hd : DistinctIDs cs) {c : Comment} (hc : c ∈ cs)
    (hnr : ¬ Reach cs c) : ∀ {d : Comment}, Descends cs c d → ¬ Reach cs d := by
  intro d h
  induction h with
  | reply d _ hd0 hdc =>
    intro hr
    cases hr with
    | root _ _ h0 => exact hd0 h0
    | reply _ p _ _ hp hpd hrp =>
      have : p = c := distinctIDs_eq hd hp hc (hpd.trans hdc)
      exact hnr (this ▸ hrp)
  | step d e _ hd0 hde hce ih =>
    intro hr
    cases hr with
    | root _ _ h0 => exact hd0 h0
    | reply _ p _ _ hp hpd hrp =>
      have : p = e := distinctIDs_eq hd hp (descends_mem hce) (hpd.trans hde)
      exact ih (this ▸ hrp)

/-! ### The claims about `buildCommentTree` -/

/-- C6, as stated, fails: a comment whose parent is not in the input is lost (the
forest built from a root 2 and a comment 3 with parent 9 holds 2 only), and with
two roots of identifier 1 their reply 2 is in the forest twice. -/
theorem buildCommentTree_drops_and_repeats :
    (buildCommentTree 2 [.mk 2 1 0 "a" 0 [], .mk 3 1 9 "b" 0 []]
        = some [.mk 2 1 0 "a" 0 []] ∧
      (nodesList [.mk 2 1 0 "a" 0 []]).count (Comment.mk 3 1 9 "b" 0 []).fields = 0) ∧
    (buildCommentTree 4 [.mk 1 1 0 "a" 0 [], .mk 1 1 0 "c" 0 [], .mk 2 1 1 "b" 0 []]
        = some [.mk 1 1 0 "a" 0 [.mk 2 1 1 "b" 0 []], .mk 1 1 0 "c" 0 [.mk 2 1 1 "b" 0 []]] ∧
      (nodesList [.mk 1 1 0 "a" 0 [.mk 2 1 1 "b" 0 []],
        .mk 1 1 0 "c" 0 [.mk 2 1 1 "b" 0 []]]).count (Comment.mk 2 1 1 "b" 0 []).fields = 2) :=
  ⟨⟨rfl, by decide⟩, ⟨rfl, by decide⟩⟩

/-- C6, amended: for an input list with pairwise distinct identifiers,
`buildCommentTree` returns a forest that contains exactly once every input
comment whose parent links lead to a comment with `ParentID` 0, contains no
other input comment and nothing that is not an input comment, and an input
comment sits at the top level if and only if its `ParentID` is 0. -/
theorem buildCommentTree_reachable_exactly_once (cs : List Comment) (hd : DistinctIDs cs) :
    ∃ forest, (∀ fuel, cs.length ≤ fuel → buildCommentTree fuel cs = some forest) ∧
      (∀ c ∈ cs, Reach cs c → (nodesList forest).count c.fields = 1) ∧
      (∀ c ∈ cs, ¬ Reach cs c → (nodesList forest).count c.fields = 0) ∧
      (∀ f ∈ nodesList forest, ∃ c ∈ cs, c.fields = f) ∧
      (∀ c ∈ cs, (c.fields ∈ forest.map Comment.fields ↔ c.ParentID = 0)) := by
  obtain ⟨forest, href, hrun, hnd, _, hin, hreach⟩ := build_distinct hd
  refine ⟨forest, hrun, ?_, ?_, hin, ?_⟩
  · intro c hc hr
    exact List.count_eq_one_of_mem hnd ((hreach c hc).2 hr)
  · intro c hc hr
    exact List.count_eq_zero_of_not_mem (fun hm => hr ((hreach c hc).1 hm))
  · intro c hc
    rw [isRefList_map_fields _ _ href]
    constructor
    · intro hm
      obtain ⟨r, hr, hrc⟩ := List.mem_map.1 hm
      have h0 := (mem_rootsOf.1 hr).2
      have : r.fields.ParentID = c.fields.ParentID := by rw [hrc]
      cases r; cases c
      simp only [Comment.fields, Comment.ParentID] at this h0 ⊢
      omega
    · intro h0
      exact List.mem_map_of_mem _ (mem_rootsOf.2 ⟨hc, h0⟩)

/-- Witness for C6: in the forest built from a root 2, its reply 3 and a root 4,
the reply 3 occurs once. -/
theorem buildCommentTree_reachable_exactly_once_witness :
    ∃ forest,
      buildCommentTree 3 [.mk 2 1 0 "a" 0 [], .mk 3 1 2 "b" 0 [], .mk 4 1 0 "c" 0 []]
        = some forest ∧
      (nodesList forest).count (Comment.mk 3 1 2 "b" 0 []).fields = 1 := by
  obtain ⟨forest, h1, h2, _⟩ := buildCommentTree_reachable_exactly_once
    [.mk 2 1 0 "a" 0 [], .mk 3 1 2 "b" 0 [], .mk 4 1 0 "c" 0 []] (by unfold DistinctIDs; decide)
  refine ⟨forest, h1 3 (Nat.le_refl _), h2 _ (by simp) ?_⟩
  exact Reach.reply _ (.mk 2 1 0 "a" 0 []) (by simp) (by decide) (by simp) rfl
    (Reach.root _ (by simp) rfl)

/-- C7: for an input list with pairwise distinct identifiers `buildCommentTree`
returns the reference forest (with fuel for as many pops as there are comments,
and whatever forest it returns with any fuel is that one). The chain 1, 2, 3
gives 1 -> 2 -> 3, and the list 2, 3 (a reply to 2), 4 gives the roots 2 and 4
with 3 the only reply of 2. -/
theorem buildCommentTree_reference_forest (cs : List Comment) (hd : DistinctIDs cs) :
    (∃ forest, IsRefForest cs forest ∧
      (∀ fuel, cs.length ≤ fuel → buildCommentTree fuel cs = some forest) ∧
      ∀ fuel forest', buildCommentTree fuel cs = some forest' → forest' = forest) ∧
    buildCommentTree 3 [.mk 1 1 0 "test comment" 7 [], .mk 2 1 1 "test comment" 7 [],
        .mk 3 1 2 "test comment" 7 []]
      = some [.mk 1 1 0 "test comment" 7 [.mk 2 1 1 "test comment" 7
          [.mk 3 1 2 "test comment" 7 []]]] ∧
    buildCommentTree 3 [.mk 2 1 0 "a" 0 [], .mk 3 1 2 "b" 0 [], .mk 4 1 0 "c" 0 []]
      = some [.mk 2 1 0 "a" 0 [.mk 3 1 2 "b" 0 []], .mk 4 1 0 "c" 0 []] := by
  obtain ⟨forest, href, hrun, _⟩ := build_distinct hd
  refine ⟨⟨forest, href, hrun, ?_⟩, rfl, rfl⟩
  intro fuel forest' h
  exact buildCommentTree_unique h (hrun cs.length (Nat.le_refl _))

/-- Witness for C7: the list 2, 3 (a reply to 2), 4. -/
theorem buildCommentTree_reference_forest_witness :
    ∃ forest,
      IsRefForest [.mk 2 1 0 "a" 0 [], .mk 3 1 2 "b" 0 [], .mk 4 1 0 "c" 0 []] forest ∧
      buildCommentTree 3 [.mk 2 1 0 "a" 0 [], .mk 3 1 2 "b" 0 [], .mk 4 1 0 "c" 0 []]
        = some forest := by
  obtain ⟨⟨forest, h1, h2, _⟩, _⟩ := buildCommentTree_reference_forest
    [.mk 2 1 0 "a" 0 [], .mk 3 1 2 "b" 0 [], .mk 4 1 0 "c" 0 []] (by unfold DistinctIDs; decide)
  exact ⟨forest, h1, h2 3 (Nat.le_refl _)⟩

/-- C8: for an input list with pairwise distinct identifiers, an input comment
occurs in the forest `buildCommentTree` returns if and only if following its
parent links reaches a comment with `ParentID` 0; so a comment whose non-zero
`ParentID` is no input comment's identifier is absent, and so is every
descendant of it. -/
theorem buildCommentTree_occurs_iff_reach (cs : List Comment) (hd : DistinctIDs cs) :
    ∃ forest, (∀ fuel, cs.length ≤ fuel → buildCommentTree fuel cs = some forest) ∧
      (∀ c ∈ cs, (c.fields ∈ nodesList forest ↔ Reach cs c)) ∧
      (∀ c ∈ cs, c.ParentID ≠ 0 → (∀ p ∈ cs, p.ID ≠ c.ParentID) →
        c.fields ∉ nodesList forest ∧
          ∀ d, Descends cs c d → d.fields ∉ nodesList forest) := by
  obtain ⟨forest, _, hrun, _, _, _, hreach⟩ := build_distinct hd
  refine ⟨forest, hrun, hreach, ?_⟩
  intro c hc hc0 horph
  have hnr : ¬ Reach cs c := by
    intro hr
    cases hr with
    | root _ _ h0 => exact hc0 h0
    | reply _ p _ _ hp hpc _ => exact horph p hp hpc
  refine ⟨fun hm => hnr ((hreach c hc).1 hm), ?_⟩
  intro d hdesc hm
  exact descends_not_reach hd hc hnr hdesc ((hreach d (descends_mem hdesc)).1 hm)

/-- Witness for C8: the comment 3 whose parent 9 is not in the input, and its
reply 5, are absent from the forest built from 2, 3, 5. -/
theorem buildCommentTree_occurs_iff_reach_witness :
    ∃ forest,
      buildCommentTree 3 [.mk 2 1 0 "a" 0 [], .mk 3 1 9 "b" 0 [], .mk 5 1 3 "c" 0 []]
        = some forest ∧
      (Comment.mk 3 1 9 "b" 0 []).fields ∉ nodesList forest ∧
      (Comment.mk 5 1 3 "c" 0 []).fields ∉ nodesList forest := by
  obtain ⟨forest, h1, _, h3⟩ := buildCommentTree_occurs_iff_reach
    [.mk 2 1 0 "a" 0 [], .mk 3 1 9 "b" 0 [], .mk 5 1 3 "c" 0 []] (by unfold DistinctIDs; decide)
  have h := h3 (.mk 3 1 9 "b" 0 []) (by simp) (by decide)
    (by intro p hp; simp at hp; rcases hp with rfl | rfl | rfl <;> decide)
  exact ⟨forest, h1 3 (Nat.le_refl _), h.1,
    h.2 _ (Descends.reply _ (by simp) (by decide) rfl)⟩

/-- C9, as stated, fails: from the three comments 1 (a root), 1 (a root) and 2 (a
reply to 1) the forest has two roots and two comments placed into `Replies`
lists, four in all. -/
theorem buildCommentTree_count_exceeds :
    buildCommentTree 4 [.mk 1 1 0 "a" 0 [], .mk 1 1 0 "c" 0 [], .mk 2 1 1 "b" 0 []]
      = some [.mk 1 1 0 "a" 0 [.mk 2 1 1 "b" 0 []], .mk 1 1 0 "c" 0 [.mk 2 1 1 "b" 0 []]] ∧
    ¬ ([Comment.mk 1 1 0 "a" 0 [.mk 2 1 1 "b" 0 []], .mk 1 1 0 "c" 0 [.mk 2 1 1 "b" 0 []]].length
        + placedList [.mk 1 1 0 "a" 0 [.mk 2 1 1 "b" 0 []], .mk 1 1 0 "c" 0 [.mk 2 1 1 "b" 0 []]]
      ≤ [Comment.mk 1 1 0 "a" 0 [], .mk 1 1 0 "c" 0 [], .mk 2 1 1 "b" 0 []].length) :=
  ⟨rfl, by decide⟩

/-- C9, amended: for a comment list of size n with pairwise distinct
identifiers, the number of roots plus the number of comments placed into some
`Replies` list of the forest `buildCommentTree` returns is at most n. -/
theorem buildCommentTree_count_le (cs : List Comment) (hd : DistinctIDs cs) :
    ∃ forest, (∀ fuel, cs.length ≤ fuel → buildCommentTree fuel cs = some forest) ∧
      forest.length + placedList forest ≤ cs.length := by
  obtain ⟨forest, _, hrun, _, hsize, _⟩ := build_distinct hd
  exact ⟨forest, hrun, by rw [← sizeList_eq_placed]; exact hsize⟩

/-- Witness for C9: the list 2, 3 (a reply to 2), 4. -/
theorem buildCommentTree_count_le_witness :
    ∃ forest,
      buildCommentTree 3 [.mk 2 1 0 "a" 0 [], .mk 3 1 2 "b" 0 [], .mk 4 1 0 "c" 0 []]
        = some forest ∧ forest.length + placedList forest ≤ 3 := by
  obtain ⟨forest, h1, h2⟩ := buildCommentTree_count_le
    [.mk 2 1 0 "a" 0 [], .mk 3 1 2 "b" 0 [], .mk 4 1 0 "c" 0 []] (by unfold DistinctIDs; decide)
  exact ⟨forest, h1 3 (Nat.le_refl _), h2⟩

/-- C10: two calls of `buildCommentTree` in succession, the second on the input
as the first call left it, return equal forests: the first call leaves the input
list, with the `Replies` of every input comment, unchanged, and every call
starts from fresh variables. -/
theorem buildCommentTree_twice (cs : List Comment) (f1 f2 : Nat) (s1 s2 : State)
    (forest1 forest2 : List Comment) (h1 : run f1 cs = some (s1, forest1))
    (h2 : run f2 s1.comments = some (s2, forest2)) :
    s1.comments = cs ∧ forest2 = forest1 ∧ buildCommentTree f1 cs = some forest1 ∧
      buildCommentTree f2 s1.comments = some forest2 := by
  have hc : s1.comments = cs := run_comments h1
  refine ⟨hc, ?_, buildCommentTree_eq.2 ⟨s1, h1⟩, buildCommentTree_eq.2 ⟨s2, h2⟩⟩
  rw [hc] at h2
  exact (congrArg Prod.snd (run_unique h1 h2)).symm

/-- Witness for C10: two calls in succession on the chain 1, 2, 3. -/
theorem buildCommentTree_twice_witness :
    ∃ s1 forest1 s2 forest2,
      run 3 [.mk 1 1 0 "a" 0 [], .mk 2 1 1 "b" 0 [], .mk 3 1 2 "c" 0 []] = some (s1, forest1) ∧
      run 3 s1.comments = some (s2, forest2) ∧
      s1.comments = [.mk 1 1 0 "a" 0 [], .mk 2 1 1 "b" 0 [], .mk 3 1 2 "c" 0 []] ∧
      forest2 = forest1 := by
  have e1 : (run 3 [.mk 1 1 0 "a" 0 [], .mk 2 1 1 "b" 0 [], .mk 3 1 2 "c" 0 []]).isSome
      = true := rfl
  obtain ⟨⟨s1, forest1⟩, h1⟩ := Option.isSome_iff_exists.1 e1
  have e2 : (run 3 s1.comments).isSome = true := by rw [run_comments h1]; exact e1
  obtain ⟨⟨s2, forest2⟩, h2⟩ := Option.isSome_iff_exists.1 e2
  have h := buildCommentTree_twice _ 3 3 s1 s2 forest1 forest2 h1 h2
  exact ⟨s1, forest1, s2, forest2, h1, h2, h.1, h.2.1⟩

end Comments

namespace Gonews

/-! ## Properties of `handlePagination` and the list endpoints -/

theorem wrapInt_of_range {x : Int} (h1 : minInt ≤ x) (h2 : x ≤ maxInt) : wrapInt x = x := by
  unfold wrapInt
  unfold minInt at h1
  unfold maxInt at h2
  omega

theorem atoi_eq_some {s : String} {p : Int} :
    Atoi s = some p ↔ decimalValue s = some p ∧ minInt ≤ p ∧ p ≤ maxInt := by
  unfold Atoi
  cases h : decimalValue s with
  | none => simp
  | some v =>
    by_cases hr : minInt ≤ v ∧ v ≤ maxInt
    · simp only [hr, and_self, if_true, Option.some.injEq]
      constructor
      · rintro rfl; exact ⟨rfl, hr⟩
      · rintro ⟨rfl, _⟩; rfl
    · simp only [hr, if_false, Option.some.injEq]
      constructor
      · intro h'; cases h'
      · rintro ⟨rfl, h1, h2⟩; exact absurd ⟨h1, h2⟩ hr

theorem tdiv_ten {t : Int} (h : 0 ≤ t) : Int.tdiv t 10 = t / 10 :=
  Int.tdiv_eq_ediv h (by decide)

theorem tmod_ten {t : Int} (h : 0 ≤ t) : Int.tmod t 10 = t % 10 := by
  have h1 := Int.tmod_add_tdiv t 10
  have h2 := Int.emod_add_ediv t 10
  rw [tdiv_ten h] at h1
  omega

/-- The run of `handlePagination` on an accepted page, a non-zero count and a
successful fetch. -/
theorem handlePagination_ok (encodeErr : Option String) (strPage : String) (totalCount : Int)
    (fetchPosts : Int → Int → Except String (List Post)) (page : Int) (posts : List Post)
    (hp : Atoi strPage = some page) (h1 : 1 ≤ page) (ht : totalCount ≠ 0)
    (hf : fetchPosts (wrapInt (PostsPerPage * wrapInt (page - 1))) PostsPerPage = .ok posts) :
    handlePagination encodeErr strPage totalCount fetchPosts =
      { writes := encode encodeErr
          { Posts := posts,
            Pagination :=
              { CurrentPage := page,
                TotalPages := wrapInt (Int.tdiv totalCount PostsPerPage + 1),
                NumberOfPosts :=
                  if page < wrapInt (Int.tdiv totalCount PostsPerPage + 1) then (posts.length : Int)
                  else Int.tmod totalCount PostsPerPage } }
          "Can't encode posts. Error: ",
        fetches := [(wrapInt (PostsPerPage * wrapInt (page - 1)), PostsPerPage)] } := by
  have h1' : ¬ page < 1 := by omega
  simp only [handlePagination, hp, h1', if_false, ht, hf]

/-- Whatever `handlePagination` hands to the encoder for a non-zero count comes
from an accepted page and a successful fetch. -/
theorem handlePagination_json_inv (encodeErr : Option String) (strPage : String)
    (totalCount : Int) (fetchPosts : Int → Int → Except String (List Post)) (res : Paginate)
    (ht : totalCount ≠ 0)
    (hres : Write.json res ∈ (handlePagination encodeErr strPage totalCount fetchPosts).writes) :
    ∃ page posts, Atoi strPage = some page ∧ 1 ≤ page ∧
      fetchPosts (wrapInt (PostsPerPage * wrapInt (page - 1))) PostsPerPage = .ok posts ∧
      res = { Posts := posts,
              Pagination :=
                { CurrentPage := page,
                  TotalPages := wrapInt (Int.tdiv totalCount PostsPerPage + 1),
                  NumberOfPosts :=
                    if page < wrapInt (Int.tdiv totalCount PostsPerPage + 1) then
                      (posts.length : Int)
                    else Int.tmod totalCount PostsPerPage } } := by
  cases hp : Atoi strPage with
  | none => simp [handlePagination, hp] at hres
  | some page =>
    by_cases h1 : page < 1
    · simp [handlePagination, hp, h1] at hres
    · cases hf : fetchPosts (wrapInt (PostsPerPage * wrapInt (page - 1))) PostsPerPage with
      | error e => simp [handlePagination, hp, h1, ht, hf] at hres
      | ok posts =>
        rw [handlePagination_ok encodeErr strPage totalCount fetchPosts page posts hp
          (by omega) ht hf] at hres
        refine ⟨page, posts, rfl, by omega, hf, ?_⟩
        cases encodeErr with
        | none => simpa [encode] using hres
        | some e => simpa [encode] using hres

theorem totalPages_eq {t : Int} (h0 : 0 < t) (h1 : t ≤ maxInt) :
    wrapInt (Int.tdiv t PostsPerPage + 1) = t / 10 + 1 := by
  unfold PostsPerPage
  rw [tdiv_ten (by omega)]
  apply wrapInt_of_range
  · unfold minInt; omega
  · unfold maxInt at *; omega

theorem start_eq {page : Int} (h1 : 1 ≤ page) (h2 : page ≤ 922337203685477581) :
    wrapInt (PostsPerPage * wrapInt (page - 1)) = 10 * (page - 1) := by
  unfold PostsPerPage
  have h : wrapInt (page - 1) = page - 1 :=
    wrapInt_of_range (by unfold minInt; omega) (by unfold maxInt; omega)
  rw [h]
  apply wrapInt_of_range
  · unfold minInt; omega
  · unfold maxInt; omega

end Gonews

namespace Gonews

/-- C11, as stated, fails: the page parameter 9223372036854775808 is a decimal
integer and is at least 1, and `handlePagination` answers 400 "Invalid page
number" to it (`strconv.Atoi` reports a value out of range). -/
theorem handlePagination_rejects_large_page :
    decimalValue "9223372036854775808" = some 9223372036854775808 ∧
    (1 : Int) ≤ 9223372036854775808 ∧
    (handlePagination none "9223372036854775808" 25 (fun _ _ => .ok [])).writes
      = [Write.error "Invalid page number" 400] := by
  decide

/-- C11, amended: `handlePagination` responds 400 Bad Request ("Invalid page
number") exactly when the page query parameter is not a decimal integer within
the range of a 64-bit signed integer or is less than 1; for every decimal integer
page with 1 <= page <= 9223372036854775807 it writes no 400. -/
theorem handlePagination_rejects_iff (encodeErr : Option String) (strPage : String)
    (totalCount : Int) (fetchPosts : Int → Int → Except String (List Post)) :
    (RejectsPage (handlePagination encodeErr strPage totalCount fetchPosts).writes ↔
      ¬ ∃ v, decimalValue strPage = some v ∧ 1 ≤ v ∧ v ≤ maxInt) ∧
    ((∃ msg, Write.error msg 400 ∈
        (handlePagination encodeErr strPage totalCount fetchPosts).writes) ↔
      ¬ ∃ v, decimalValue strPage = some v ∧ 1 ≤ v ∧ v ≤ maxInt) := by
  have hmin : minInt ≤ 1 := by decide
  cases hp : Atoi strPage with
  | none =>
    have hno : ¬ ∃ v, decimalValue strPage = some v ∧ 1 ≤ v ∧ v ≤ maxInt := by
      rintro ⟨v, hv, h1, h2⟩
      have := atoi_eq_some.2 ⟨hv, by omega, h2⟩
      rw [hp] at this
      cases this
    simp only [hno, not_false_eq_true, iff_true]
    simp [handlePagination, hp, RejectsPage]
  | some page =>
    obtain ⟨hd, _, hmax⟩ := atoi_eq_some.1 hp
    by_cases h1 : page < 1
    · have hno : ¬ ∃ v, decimalValue strPage = some v ∧ 1 ≤ v ∧ v ≤ maxInt := by
        rintro ⟨v, hv, h1', _⟩
        rw [hd] at hv
        cases hv
        omega
      simp only [hno, not_false_eq_true, iff_true]
      simp [handlePagination, hp, h1, RejectsPage]
    · have hyes : ∃ v, decimalValue strPage = some v ∧ 1 ≤ v ∧ v ≤ maxInt :=
        ⟨page, hd, by omega, hmax⟩
      simp only [hyes, not_true_eq_false, iff_false]
      by_cases ht : totalCount = 0
      · cases encodeErr <;> simp [handlePagination, hp, h1, ht, RejectsPage, encode]
      · cases hf : fetchPosts (wrapInt (PostsPerPage * wrapInt (page - 1))) PostsPerPage <;>
          cases encodeErr <;> simp [handlePagination, hp, h1, ht, hf, RejectsPage, encode]

/-- C12, as stated, fails: on the page parameter "abc" `postsHandler` has called
`Count`, and `filternews` has called `CountOfFilter`, when it answers 400. -/
theorem list_endpoints_count_before_rejecting :
    postsHandler ⟨.ok 25, fun _ => .ok 25, fun _ _ => .ok [], fun _ _ _ => .ok []⟩ none "abc"
      = { writes := [Write.error "Invalid page number" 400], calls := [StoreCall.Count] } ∧
    filternews ⟨.ok 25, fun _ => .ok 25, fun _ _ => .ok [], fun _ _ _ => .ok []⟩ none "Go" "abc"
      = { writes := [Write.error "Invalid page number" 400],
          calls := [StoreCall.CountOfFilter "Go"] } := by
  decide

/-- C12, amended: when the page parameter is invalid (`strconv.Atoi` fails on
it, or it is less than 1), `postsHandler` and `filternews` make exactly one store
call, the count (`Count`, or `CountOfFilter`), and no `Posts` or `Filter` call;
when the count succeeds they answer 400 "Invalid page number". -/
theorem list_endpoints_invalid_page (db : Store) (encodeErr : Option String)
    (strSearch strPage : String) (hinv : ∀ p, Atoi strPage = some p → p < 1) :
    (postsHandler db encodeErr strPage).calls = [StoreCall.Count] ∧
    (filternews db encodeErr strSearch strPage).calls = [StoreCall.CountOfFilter strSearch] ∧
    (∀ count, db.Count = .ok count →
      RejectsPage (postsHandler db encodeErr strPage).writes) ∧
    (∀ count, db.CountOfFilter strSearch = .ok count →
      RejectsPage (filternews db encodeErr strSearch strPage).writes) := by
  have hrej : ∀ (t : Int) (f : Int → Int → Except String (List Post)),
      handlePagination encodeErr strPage t f
        = { writes := [Write.error "Invalid page number" 400], fetches := [] } := by
    intro t f
    cases hp : Atoi strPage with
    | none => simp [handlePagination, hp]
    | some p => simp [handlePagination, hp, hinv p hp]
  refine ⟨?_, ?_, ?_, ?_⟩
  · unfold postsHandler
    cases db.Count <;> simp [hrej]
  · unfold filternews
    cases db.CountOfFilter strSearch <;> simp [hrej]
  · intro count hc
    simp [postsHandler, hc, hrej, RejectsPage]
  · intro count hc
    simp [filternews, hc, hrej, RejectsPage]

/-- Witness for C12: the page parameter "0". -/
theorem list_endpoints_invalid_page_witness :
    (postsHandler ⟨.ok 25, fun _ => .ok 25, fun _ _ => .ok [], fun _ _ _ => .ok []⟩ none
      "0").calls = [StoreCall.Count] :=
  (list_endpoints_invalid_page ⟨.ok 25, fun _ => .ok 25, fun _ _ => .ok [], fun _ _ _ => .ok []⟩
    none "Go" "0" (by intro p hp; have : p = 0 := by
                        have h0 : Atoi "0" = some 0 := by decide
                        rw [h0] at hp; exact (Option.some.inj hp).symm
                      omega)).1

/-- C13: when the total count is 0, for every accepted page P >= 1
`handlePagination` hands to the encoder the empty post list with the pagination
{CurrentPage: 1, TotalPages: 1, NumberOfPosts: 0}, and does not call the
page-fetch callback. -/
theorem handlePagination_zero_items (encodeErr : Option String) (strPage : String)
    (fetchPosts : Int → Int → Except String (List Post)) (page : Int)
    (hp : Atoi strPage = some page) (h1 : 1 ≤ page) :
    (handlePagination encodeErr strPage 0 fetchPosts).fetches = [] ∧
    (handlePagination encodeErr strPage 0 fetchPosts).writes.head? = some (Write.json
      { Posts := [], Pagination := { CurrentPage := 1, TotalPages := 1, NumberOfPosts := 0 } }) ∧
    (encodeErr = none → (handlePagination encodeErr strPage 0 fetchPosts).writes = [Write.json
      { Posts := [], Pagination := { CurrentPage := 1, TotalPages := 1, NumberOfPosts := 0 } }]) := by
  have h1' : ¬ page < 1 := by omega
  cases encodeErr <;> simp [handlePagination, hp, h1', encode]

/-- Witness for C13: page 4 of an empty store. -/
theorem handlePagination_zero_items_witness :
    (handlePagination none "4" 0 (fun _ _ => .ok [])).fetches = [] ∧
    (handlePagination none "4" 0 (fun _ _ => .ok [])).writes.head? = some (Write.json
      { Posts := [], Pagination := { CurrentPage := 1, TotalPages := 1, NumberOfPosts := 0 } }) :=
  ⟨(handlePagination_zero_items none "4" (fun _ _ => .ok []) 4 (by decide) (by decide)).1,
   (handlePagination_zero_items none "4" (fun _ _ => .ok []) 4 (by decide) (by decide)).2.1⟩

/-- C14: for every total count T > 0, on an accepted page and a successful
fetch, `handlePagination` reports TotalPages = floor(T / 10) + 1; T = 10 gives 2
pages and an exact multiple T = k * 10 gives k + 1 pages. -/
theorem handlePagination_total_pages (encodeErr : Option String) (strPage : String)
    (totalCount : Int) (fetchPosts : Int → Int → Except String (List Post)) (page : Int)
    (posts : List Post) (hp : Atoi strPage = some page) (h1 : 1 ≤ page)
    (ht : 0 < totalCount) (ht' : totalCount ≤ maxInt)
    (hf : fetchPosts (wrapInt (PostsPerPage * wrapInt (page - 1))) PostsPerPage = .ok posts) :
    ∃ res, (handlePagination encodeErr strPage totalCount fetchPosts).writes.head?
        = some (Write.json res) ∧
      res.Pagination.TotalPages = totalCount / 10 + 1 ∧
      (totalCount = 10 → res.Pagination.TotalPages = 2) ∧
      ∀ k, totalCount = k * 10 → res.Pagination.TotalPages = k + 1 := by
  rw [handlePagination_ok encodeErr strPage totalCount fetchPosts page posts hp h1 (by omega) hf]
  have hpages := totalPages_eq ht ht'
  refine ⟨{ Posts := posts,
            Pagination :=
              { CurrentPage := page,
                TotalPages := wrapInt (Int.tdiv totalCount PostsPerPage + 1),
                NumberOfPosts :=
                  if page < wrapInt (Int.tdiv totalCount PostsPerPage + 1) then (posts.length : Int)
                  else Int.tmod totalCount PostsPerPage } }, ?_, hpages, ?_, ?_⟩
  · cases encodeErr <;> rfl
  · intro h10
    show wrapInt (Int.tdiv totalCount PostsPerPage + 1) = 2
    rw [hpages, h10]
    decide
  · intro k hk
    show wrapInt (Int.tdiv totalCount PostsPerPage + 1) = k + 1
    rw [hpages, hk]
    omega

/-- Witness for C14: ten posts, page 1. -/
theorem handlePagination_total_pages_witness :
    ∃ res, (handlePagination none "1" 10 (fun _ _ => .ok [])).writes.head?
        = some (Write.json res) ∧ res.Pagination.TotalPages = 2 := by
  obtain ⟨res, h1, _, h3, _⟩ := handlePagination_total_pages none "1" 10 (fun _ _ => .ok []) 1 []
    (by decide) (by decide) (by decide) (by decide) rfl
  exact ⟨res, h1, h3 rfl⟩

/-- C15, as stated, fails: `strconv.Atoi` accepts the page 922337203685477582,
and the callback is called with the offset -9223372036854775806, the wrapped
value of 10 * (P - 1) = 9223372036854775810. -/
theorem handlePagination_offset_wraps :
    Atoi "922337203685477582" = some 922337203685477582 ∧
    (handlePagination none "922337203685477582" 25 (fun _ _ => .ok [])).fetches
      = [(-9223372036854775806, 10)] ∧
    (-9223372036854775806 : Int) ≠ 10 * (922337203685477582 - 1) := by
  decide

/-- C15, amended: for every accepted page P with 1 <= P <= 922337203685477581
(the pages for which 10 * (P - 1) fits a 64-bit signed integer) and every total
count other than 0, `handlePagination` calls the page-fetch callback exactly
once, with the offset 10 * (P - 1), a non-negative number, and the limit 10. -/
theorem handlePagination_fetch_once (encodeErr : Option String) (strPage : String)
    (totalCount : Int) (fetchPosts : Int → Int → Except String (List Post)) (page : Int)
    (hp : Atoi strPage = some page) (h1 : 1 ≤ page) (h2 : page ≤ 922337203685477581)
    (ht : totalCount ≠ 0) :
    (handlePagination encodeErr strPage totalCount fetchPosts).fetches
      = [(10 * (page - 1), 10)] ∧ 0 ≤ 10 * (page - 1) := by
  have h1' : ¬ page < 1 := by omega
  refine ⟨?_, by omega⟩
  have hs := start_eq h1 h2
  unfold handlePagination
  simp only [hp, h1', if_false, ht, hs]
  cases fetchPosts (10 * (page - 1)) PostsPerPage <;> rfl

/-- Witness for C15: page 3 of 25 posts. -/
theorem handlePagination_fetch_once_witness :
    (handlePagination none "3" 25 (fun _ _ => .ok [])).fetches = [(10 * (3 - 1), 10)] :=
  (handlePagination_fetch_once none "3" 25 (fun _ _ => .ok []) 3 (by decide) (by decide)
    (by decide) (by decide)).1

/-- C16: for every total count T > 0, on an accepted page P and a successful
fetch, `handlePagination` reports NumberOfPosts = the number of fetched posts
when P < TotalPages and T mod 10 otherwise. With T = 25 and ten posts fetched,
page 1 gives TotalPages = 3 and NumberOfPosts = 10, and page 3 gives
NumberOfPosts = 5. -/
theorem handlePagination_number_of_posts (encodeErr : Option String) (strPage : String)
    (totalCount : Int) (fetchPosts : Int → Int → Except String (List Post)) (page : Int)
    (posts : List Post) (hp : Atoi strPage = some page) (h1 : 1 ≤ page)
    (ht : 0 < totalCount)
    (hf : fetchPosts (wrapInt (PostsPerPage * wrapInt (page - 1))) PostsPerPage = .ok posts) :
    (∃ res, (handlePagination encodeErr strPage totalCount fetchPosts).writes.head?
        = some (Write.json res) ∧ res.Posts = posts ∧
      res.Pagination.NumberOfPosts =
        (if page < res.Pagination.TotalPages then (posts.length : Int) else totalCount % 10)) ∧
    (handlePagination none "1" 25
        (fun _ _ => .ok (List.replicate 10 ⟨1, "t", "c", 0, "l"⟩))).writes
      = [Write.json { Posts := List.replicate 10 ⟨1, "t", "c", 0, "l"⟩,
                      Pagination := { CurrentPage := 1, TotalPages := 3, NumberOfPosts := 10 } }] ∧
    (handlePagination none "3" 25
        (fun _ _ => .ok (List.replicate 5 ⟨1, "t", "c", 0, "l"⟩))).writes
      = [Write.json { Posts := List.replicate 5 ⟨1, "t", "c", 0, "l"⟩,
                      Pagination := { CurrentPage := 3, TotalPages := 3, NumberOfPosts := 5 } }] := by
  refine ⟨?_, by decide, by decide⟩
  rw [handlePagination_ok encodeErr strPage totalCount fetchPosts page posts hp h1 (by omega) hf]
  refine ⟨{ Posts := posts,
            Pagination :=
              { CurrentPage := page,
                TotalPages := wrapInt (Int.tdiv totalCount PostsPerPage + 1),
                NumberOfPosts :=
                  if page < wrapInt (Int.tdiv totalCount PostsPerPage + 1) then (posts.length : Int)
                  else Int.tmod totalCount PostsPerPage } }, ?_, rfl, ?_⟩
  · cases encodeErr <;> rfl
  · simp only [PostsPerPage, tmod_ten (Int.le_of_lt ht)]

/-- Witness for C16: page 3 of 25 posts. -/
theorem handlePagination_number_of_posts_witness :
    ∃ res, (handlePagination none "3" 25 (fun _ _ => .ok [])).writes.head?
        = some (Write.json res) ∧
      res.Pagination.NumberOfPosts =
        (if (3 : Int) < res.Pagination.TotalPages then (([] : List Post).length : Int)
          else 25 % 10) := by
  obtain ⟨⟨res, h1, _, h3⟩, _⟩ := handlePagination_number_of_posts none "3" 25
    (fun _ _ => .ok []) 3 [] (by decide) (by decide) (by decide) rfl
  exact ⟨res, h1, h3⟩

/-- C17, as stated, fails: with 5 posts in all, page 7 and an empty fetch the
response has CurrentPage = 7 and TotalPages = 1. -/
theorem handlePagination_page_beyond_last :
    (handlePagination none "7" 5 (fun _ _ => .ok [])).writes
      = [Write.json { Posts := [],
                      Pagination := { CurrentPage := 7, TotalPages := 1, NumberOfPosts := 5 } }] ∧
    ¬ ((7 : Int) ≤ 1) := by
  decide

/-- C17, amended: whenever the total count is greater than 0 and
`handlePagination` produces a paginated response, the response's CurrentPage is
the requested page and is at least 1, TotalPages is floor(T / 10) + 1, and
CurrentPage is at most TotalPages exactly when the requested page is at most
floor(T / 10) + 1. -/
theorem handlePagination_current_page (encodeErr : Option String) (strPage : String)
    (totalCount : Int) (fetchPosts : Int → Int → Except String (List Post)) (res : Paginate)
    (ht : 0 < totalCount) (ht' : totalCount ≤ maxInt)
    (hres : Write.json res ∈ (handlePagination encodeErr strPage totalCount fetchPosts).writes) :
    Atoi strPage = some res.Pagination.CurrentPage ∧ 1 ≤ res.Pagination.CurrentPage ∧
      res.Pagination.TotalPages = totalCount / 10 + 1 ∧
      (res.Pagination.CurrentPage ≤ res.Pagination.TotalPages ↔
        res.Pagination.CurrentPage ≤ totalCount / 10 + 1) := by
  obtain ⟨page, posts, hp, h1, _, rfl⟩ :=
    handlePagination_json_inv encodeErr strPage totalCount fetchPosts res (by omega) hres
  refine ⟨hp, h1, totalPages_eq ht ht', ?_⟩
  show page ≤ wrapInt (Int.tdiv totalCount PostsPerPage + 1) ↔ page ≤ totalCount / 10 + 1
  rw [totalPages_eq ht ht']

/-- Witness for C17: page 2 of 25 posts. -/
theorem handlePagination_current_page_witness :
    Atoi "2" = some (2 : Int) ∧ (1 : Int) ≤ 2 :=
  ⟨(handlePagination_current_page none "2" 25 (fun _ _ => .ok [])
      { Posts := [], Pagination := { CurrentPage := 2, TotalPages := 3, NumberOfPosts := 0 } }
      (by decide) (by decide) (by decide)).1,
   (handlePagination_current_page none "2" 25 (fun _ _ => .ok [])
      { Posts := [], Pagination := { CurrentPage := 2, TotalPages := 3, NumberOfPosts := 0 } }
      (by decide) (by decide) (by decide)).2.1⟩

end Gonews

namespace APIGateway

/-! ## Properties of the gateway's `detailedNews` -/

theorem mergeLoop_error_of_failed (env : Downstream) (postID reqID : String) (postFirst : Bool)
    (hfail : (∃ e, getPost env postID reqID = .error e) ∨
      ∃ e, getComments env postID reqID = .error e) :
    ∃ e, firstError (arrivals env postID reqID postFirst) = some e ∧
      mergeLoop (arrivals env postID reqID postFirst)
        { ID := 0, Title := "", Content := "", PubTime := 0, Link := "", Comments := [] } []
        = .error e := by
  unfold arrivals
  rcases hfail with ⟨e, he⟩ | ⟨e, he⟩
  · rw [he]
    cases getComments env postID reqID <;> cases postFirst <;>
      simp [mergeLoop, firstError]
  · rw [he]
    cases getPost env postID reqID <;> cases postFirst <;>
      simp [mergeLoop, firstError]

/-- C18: in `detailedNews`, if at least one of the two fetches fails then, for
either order in which the two results reach the merge loop, the response is 400
Bad Request with the text of the first error to arrive, and no post JSON is
written. -/
theorem detailedNews_error_short_circuit (env : Downstream) (postID reqID : String)
    (postFirst : Bool) (encodeErr : Option String) (hid : postID ≠ "")
    (hfail : (∃ e, getPost env postID reqID = .error e) ∨
      ∃ e, getComments env postID reqID = .error e) :
    ∃ e, firstError (arrivals env postID reqID postFirst) = some e ∧
      detailedNews env postID reqID postFirst encodeErr = [Written.error e StatusBadRequest] ∧
      ∀ post, Written.json post ∉ detailedNews env postID reqID postFirst encodeErr := by
  obtain ⟨e, h1, h2⟩ := mergeLoop_error_of_failed env postID reqID postFirst hfail
  have h3 : detailedNews env postID reqID postFirst encodeErr
      = [Written.error e StatusBadRequest] := by
    simp only [detailedNews, hid, if_false, h2]
  refine ⟨e, h1, h3, ?_⟩
  intro post hmem
  rw [h3] at hmem
  simp at hmem

/-- Witness for C18: the news service cannot be reached, the comments service
answers; the comments arrive first. -/
theorem detailedNews_error_short_circuit_witness :
    ∃ e, detailedNews
        ⟨fun url => if url = "http://localhost:8082/comments?id_post=1&requset_id=7" then
            .response 200 (.ok [91, 93]) else .transportErr "connection refused",
          fun _ => .error "unexpected end of JSON input", fun _ => .ok []⟩
        "1" "7" false none = [Written.error e StatusBadRequest] := by
  obtain ⟨e, _, h, _⟩ := detailedNews_error_short_circuit
    ⟨fun url => if url = "http://localhost:8082/comments?id_post=1&requset_id=7" then
        .response 200 (.ok [91, 93]) else .transportErr "connection refused",
      fun _ => .error "unexpected end of JSON input", fun _ => .ok []⟩
    "1" "7" false none (by decide) (Or.inl ⟨"connection refused", rfl⟩)
  exact ⟨e, h⟩

/-- C19: in `detailedNews`, when both fetches succeed the response is 200 with
the fetched post whose `Comments` field is the fetched comment forest and whose
other fields are those of the fetched post, whichever of the two results reaches
the merge loop first. -/
theorem detailedNews_both_succeed (env : Downstream) (postID reqID : String)
    (encodeErr : Option String) (post : PostFullDetailed) (comments : List Comment)
    (hid : postID ≠ "") (hp : getPost env postID reqID = .ok post)
    (hc : getComments env postID reqID = .ok comments) :
    (∀ postFirst, (detailedNews env postID reqID postFirst encodeErr).take 2
      = [Written.header StatusOK, Written.json { post with Comments := comments }]) ∧
    (encodeErr = none → ∀ postFirst, detailedNews env postID reqID postFirst encodeErr
      = [Written.header StatusOK, Written.json { post with Comments := comments }]) ∧
    detailedNews env postID reqID true encodeErr
      = detailedNews env postID reqID false encodeErr := by
  have h : ∀ postFirst, mergeLoop (arrivals env postID reqID postFirst)
      { ID := 0, Title := "", Content := "", PubTime := 0, Link := "", Comments := [] } []
      = .ok (post, comments) := by
    intro postFirst
    unfold arrivals
    rw [hp, hc]
    cases postFirst <;> simp [mergeLoop]
  refine ⟨?_, ?_, ?_⟩
  · intro postFirst
    cases encodeErr <;> simp [detailedNews, hid, h postFirst]
  · rintro rfl postFirst
    simp [detailedNews, hid, h postFirst]
  · simp only [detailedNews, hid, if_false, h true, h false]

/-- Witness for C19: both services answer 200. -/
theorem detailedNews_both_succeed_witness :
    detailedNews
        ⟨fun _ => .response 200 (.ok [91, 93]),
          fun _ => .ok ⟨1, "t", "c", 0, "l", []⟩, fun _ => .ok [.mk 2 1 0 "a" 0 true []]⟩
        "1" "7" true none
      = detailedNews
        ⟨fun _ => .response 200 (.ok [91, 93]),
          fun _ => .ok ⟨1, "t", "c", 0, "l", []⟩, fun _ => .ok [.mk 2 1 0 "a" 0 true []]⟩
        "1" "7" false none :=
  (detailedNews_both_succeed
    ⟨fun _ => .response 200 (.ok [91, 93]),
      fun _ => .ok ⟨1, "t", "c", 0, "l", []⟩, fun _ => .ok [.mk 2 1 0 "a" 0 true []]⟩
    "1" "7" none ⟨1, "t", "c", 0, "l", []⟩ [.mk 2 1 0 "a" 0 true []] (by decide) rfl rfl).2.2

/-- C20: the comments service answers 500 with the body `[]`: `getComments`
returns the empty comment list and no error, while `getPost` returns an error on
the same answer of the news service. -/
theorem getComments_ignores_status :
    getComments ⟨fun _ => .response 500 (.ok [91, 93]), fun _ => .error "cannot unmarshal",
        fun _ => .ok []⟩ "1" "7" = .ok [] ∧
    getPost ⟨fun _ => .response 500 (.ok [91, 93]), fun _ => .error "cannot unmarshal",
        fun _ => .ok []⟩ "1" "7" = .error "[]" :=
  ⟨rfl, rfl⟩

end APIGateway

namespace APIGateway

/-! ## Properties of the fetches of `detailedNews`, of `idGenerator` and of the
bodies sent by `addComment` -/

/-- C21, as stated, fails: for the id "abc", which is not an integer,
`detailedNews` issues the post fetch and the comments fetch. -/
theorem detailedNews_fetches_malformed_id :
    Gonews.Atoi "abc" = none ∧
    detailedNewsGets "abc" "7"
      = ["http://localhost:8081/news/id?id=abc&requset_id=7",
         "http://localhost:8082/comments?id_post=abc&requset_id=7"] := by
  decide

/-- C21, amended: for a missing id query parameter `detailedNews` responds 400
Bad Request without issuing either downstream fetch; for every id that is
present, an integer or not, it issues both fetches. -/
theorem detailedNews_missing_id (env : Downstream) (reqID : String) (postFirst : Bool)
    (encodeErr : Option String) :
    detailedNews env "" reqID postFirst encodeErr
      = [Written.error "ID not found." StatusBadRequest] ∧
    detailedNewsGets "" reqID = [] ∧
    ∀ postID, postID ≠ "" → (detailedNewsGets postID reqID).length = 2 := by
  refine ⟨by simp [detailedNews], by simp [detailedNewsGets], ?_⟩
  intro postID hid
  simp [detailedNewsGets, hid]

/-- Witness for C21: the id "abc". -/
theorem detailedNews_missing_id_witness : (detailedNewsGets "abc" "7").length = 2 :=
  (detailedNews_missing_id ⟨fun _ => .transportErr "x", fun _ => .error "x", fun _ => .ok []⟩
    "7" true none).2.2 "abc" (by decide)

/-- C23: for the draw 0 `idGenerator` returns "100000", a number of 6 digits, and
for the draw 9999999 it returns "10099999", a number of 8 digits. -/
theorem idGenerator_not_seven_digits :
    idGenerator 0 = "100000" ∧ (idGenerator 0).length = 6 ∧
    idGenerator 9999999 = "10099999" ∧ (idGenerator 9999999).length = 8 := by
  decide

/-- C29: in `addComment` every request sent, to the moderation gate and to the
comment store, carries the inbound request body, byte for byte; so in a run that
reaches the store the body stored is the body moderated. -/
theorem addComment_same_body (env : Env) (reqID : String) :
    (∀ c ∈ (addComment env reqID).2, env.readBody = .ok c.body) ∧
    ∀ gate ∈ (addComment env reqID).2, ∀ store ∈ (addComment env reqID).2,
      gate.service = .cenzor → store.service = .comments → store.body = gate.body := by
  have h : ∀ c ∈ (addComment env reqID).2, env.readBody = .ok c.body := by
    obtain ⟨rb, cn, cd, kn, kd⟩ := env
    cases rb <;> cases cn <;> cases cd <;> cases kn <;> cases kd <;>
      simp [addComment] <;> split_ifs <;> simp
  refine ⟨h, ?_⟩
  intro gate hg store hs _ _
  have h1 := h gate hg
  have h2 := h store hs
  rw [h1] at h2
  exact (Except.ok.inj h2).symm

/-- Witness for C29: a run that reaches the store. -/
theorem addComment_same_body_witness :
    ∀ c ∈ (addComment ⟨.ok [1, 2, 3], none, .response 200, none, .response 200⟩ "7").2,
      (Except.ok [1, 2, 3] : Except String Bytes) = .ok c.body :=
  (addComment_same_body ⟨.ok [1, 2, 3], none, .response 200, none, .response 200⟩ "7").1

end APIGateway

namespace CommentsAPI

/-- C24: on a successful insert the handler `addComment` of the comment store
answers 200 with an empty body, whatever identifier the insert returned: no JSON
and no key "id" is written. -/
theorem addComment_writes_no_id (c : Comments.Comment) (id : Int) :
    addComment (.ok c) (fun _ => .ok id) = { status := 200, body := "" } ∧
    (addComment (.ok c) (fun _ => .ok id)).body.length = 0 :=
  ⟨rfl, rfl⟩

end CommentsAPI

namespace Gonews

/-! ## Properties of `postById` and of the in-memory store -/

/-- C22: the store holds no post with the id 7. With the postgres store
`postById` answers 500, and with the in-memory store it answers 200 with the
zero post; neither answers 404. -/
theorem postById_not_found_is_not_404 :
    postById (Postgres.PostByID []) "" none "7"
      = [PostWrite.error ("\x7b\"error\": \"Can't get post by ID. Error: " ++
          "can't get post by id from db: no rows in result set\"\x7d") 500] ∧
    postById (Memdb.PostByID Memdb.New) "" none "7"
      = [PostWrite.json { ID := 0, Title := "", Content := "", PubTime := 0, Link := "" }] := by
  decide

/-- C27: the in-memory store holds two posts: `Posts(0, 1)` returns both, and so
does `Posts(5, 10)`, whose offset is beyond the number of posts. -/
theorem memdb_posts_ignores_offset_and_limit :
    Memdb.Posts (Memdb.AddPosts Memdb.New [⟨0, "a", "", 0, "1"⟩, ⟨0, "b", "", 0, "2"⟩]) 0 1
      = .ok [⟨1, "a", "", 0, "1"⟩, ⟨2, "b", "", 0, "2"⟩] ∧
    Memdb.Posts (Memdb.AddPosts Memdb.New [⟨0, "a", "", 0, "1"⟩, ⟨0, "b", "", 0, "2"⟩]) 5 10
      = .ok [⟨1, "a", "", 0, "1"⟩, ⟨2, "b", "", 0, "2"⟩] :=
  ⟨rfl, rfl⟩

end Gonews

namespace Gonews

namespace Memdb

theorem numbered_keys : ∀ (ps : List Post) (n : Int), ∀ e ∈ numbered n ps,
    n ≤ e.1 ∧ e.1 < n + ps.length ∧ e.2.ID = e.1
  | [], _, e, h => by simp [numbered] at h
  | p :: ps, n, e, h => by
    simp only [numbered, List.mem_cons] at h
    rcases h with rfl | h
    · refine ⟨Int.le_refl _, ?_, rfl⟩
      show n < n + ((ps.length + 1 : Nat) : Int)
      omega
    · have := numbered_keys ps (n + 1) e h
      refine ⟨by omega, ?_, this.2.2⟩
      show e.1 < n + ((ps.length + 1 : Nat) : Int)
      omega

theorem numbered_append : ∀ (ps : List Post) (n : Int) (p : Post),
    numbered n (ps ++ [p])
      = numbered n ps ++ [(n + ps.length, { p with ID := n + ps.length })]
  | [], n, p => by simp [numbered]
  | q :: ps, n, p => by
    show (n, { q with ID := n }) :: numbered (n + 1) (ps ++ [p])
      = (n, { q with ID := n }) :: (numbered (n + 1) ps ++
          [(n + ((ps.length + 1 : Nat) : Int), { p with ID := n + ((ps.length + 1 : Nat) : Int) })])
    rw [numbered_append ps (n + 1) p]
    have e : n + 1 + (ps.length : Int) = n + ((ps.length + 1 : Nat) : Int) := by
      push_cast; omega
    rw [e]

theorem numbered_length : ∀ (ps : List Post) (n : Int), (numbered n ps).length = ps.length
  | [], _ => rfl
  | _ :: ps, n => by simp [numbered, numbered_length ps (n + 1)]

theorem numbered_map_fst : ∀ (ps : List Post) (n : Int),
    (numbered n ps).map Prod.fst = (List.range ps.length).map (fun (i : Nat) => n + (i : Int))
  | [], _ => rfl
  | _ :: ps, n => by
    simp only [numbered, List.map_cons, List.length_cons, List.range_succ_eq_map, List.map_map,
      numbered_map_fst ps (n + 1)]
    simp only [Nat.cast_zero, Int.add_zero, List.cons.injEq, true_and]
    apply List.map_congr_left
    intro i _
    simp only [Function.comp, Nat.cast_succ]
    omega

theorem mapSet_new : ∀ (l : List (Int × Post)) (k : Int) (v : Post), (∀ e ∈ l, e.1 ≠ k) →
    mapSet l k v = l ++ [(k, v)]
  | [], _, _, _ => rfl
  | (k', v') :: rest, k, v, h => by
    have hk : k' ≠ k := h (k', v') (List.mem_cons_self _ _)
    simp only [mapSet, hk, if_false, List.cons_append, List.cons.injEq, true_and]
    exact mapSet_new rest k v (fun e he => h e (List.mem_cons_of_mem _ he))

theorem foldl_addPost : ∀ (ps done : List Post),
    ps.foldl addPost { id := (done.length : Int) + 1, store := numbered 1 done }
      = { id := ((done ++ ps).length : Int) + 1, store := numbered 1 (done ++ ps) }
  | [], done => by simp
  | p :: ps, done => by
    have hnew : ∀ e ∈ numbered 1 done, e.1 ≠ (done.length : Int) + 1 := by
      intro e he
      have := numbered_keys done 1 e he
      omega
    have hstep : addPost { id := (done.length : Int) + 1, store := numbered 1 done } p
        = { id := ((done ++ [p]).length : Int) + 1, store := numbered 1 (done ++ [p]) } := by
      simp only [addPost, mapSet_new _ _ _ hnew, numbered_append, List.length_append,
        List.length_singleton, Nat.cast_add, Nat.cast_one]
      have : (1 : Int) + (done.length : Int) = (done.length : Int) + 1 := by omega
      rw [this]
    rw [List.foldl_cons, hstep, foldl_addPost ps (done ++ [p])]
    simp

theorem foldl_AddPosts : ∀ (batches : List (List Post)) (done : List Post),
    batches.foldl AddPosts { id := (done.length : Int) + 1, store := numbered 1 done }
      = { id := ((done ++ batches.flatten).length : Int) + 1,
          store := numbered 1 (done ++ batches.flatten) }
  | [], done => by simp
  | b :: batches, done => by
    rw [List.foldl_cons]
    unfold AddPosts
    rw [foldl_addPost b done]
    have := foldl_AddPosts batches (done ++ b)
    unfold AddPosts at this
    rw [this]
    simp

/-- C30: starting from `memdb.New()`, after `AddPosts` calls that add k posts in
all, the keys of the store are exactly 1..k, in the order the posts were added,
each stored post has its key as `ID` and is otherwise the post added, the keys
are pairwise distinct, `Count()` returns k and the next identifier is k + 1. -/
theorem memdb_ids_after_adds (batches : List (List Post)) :
    (batches.foldl AddPosts New).store = numbered 1 batches.flatten ∧
    (batches.foldl AddPosts New).store.map Prod.fst
      = (List.range batches.flatten.length).map (fun (i : Nat) => 1 + (i : Int)) ∧
    (∀ e ∈ (batches.foldl AddPosts New).store, e.2.ID = e.1) ∧
    ((batches.foldl AddPosts New).store.map Prod.fst).Nodup ∧
    Count (batches.foldl AddPosts New) = .ok (batches.flatten.length : Int) ∧
    (batches.foldl AddPosts New).id = (batches.flatten.length : Int) + 1 := by
  have h := foldl_AddPosts batches []
  simp only [List.length_nil, Nat.cast_zero, Int.zero_add, numbered, List.nil_append] at h
  have h' : batches.foldl AddPosts New
      = { id := (batches.flatten.length : Int) + 1, store := numbered 1 batches.flatten } := h
  rw [h']
  refine ⟨rfl, numbered_map_fst _ 1, ?_, ?_, ?_, rfl⟩
  · intro e he
    exact (numbered_keys _ 1 e he).2.2
  · show ((numbered 1 batches.flatten).map Prod.fst).Nodup
    rw [numbered_map_fst]
    apply List.Nodup.map _ (List.nodup_range _)
    intro a b hab
    simp only at hab
    omega
  · simp [Count, numbered_length]

/-- Witness for C30: two calls that add three posts, one with an identifier of
its own. -/
theorem memdb_ids_after_adds_witness :
    ∀ e ∈ ([[⟨0, "a", "", 0, "1"⟩, ⟨9, "b", "", 0, "2"⟩], [⟨0, "c", "", 0, "3"⟩]].foldl
        AddPosts New).store, e.2.ID = e.1 :=
  (memdb_ids_after_adds [[⟨0, "a", "", 0, "1"⟩, ⟨9, "b", "", 0, "2"⟩],
    [⟨0, "c", "", 0, "3"⟩]]).2.2.1

end Memdb

/-- C28: when the page fetch returns min(10, max(0, T - offset)) posts for a
store holding T posts, for every T > 0 and every accepted page P with
1 <= P <= TotalPages = floor(T / 10) + 1 the NumberOfPosts that `handlePagination`
reports is the number of posts in the response's `Posts` list. -/
theorem handlePagination_number_matches_posts (encodeErr : Option String) (strPage : String)
    (totalCount : Int) (fetchPosts : Int → Int → Except String (List Post)) (page : Int)
    (hp : Atoi strPage = some page) (h1 : 1 ≤ page) (h2 : page ≤ totalCount / 10 + 1)
    (ht : 0 < totalCount) (ht' : totalCount ≤ maxInt)
    (hfetch : ∀ start limit, ∃ posts, fetchPosts start limit = .ok posts ∧
      (posts.length : Int) = min 10 (max 0 (totalCount - start))) :
    ∃ res, (handlePagination encodeErr strPage totalCount fetchPosts).writes.head?
        = some (Write.json res) ∧
      res.Pagination.TotalPages = totalCount / 10 + 1 ∧
      res.Pagination.NumberOfPosts = (res.Posts.length : Int) := by
  have hmax : totalCount ≤ 9223372036854775807 := ht'
  have hs := start_eq h1 (by omega : page ≤ 922337203685477581)
  obtain ⟨posts, hf, hlen⟩ := hfetch (10 * (page - 1)) PostsPerPage
  rw [← hs] at hf
  rw [handlePagination_ok encodeErr strPage totalCount fetchPosts page posts hp h1 (by omega) hf]
  have hpages := totalPages_eq ht ht'
  refine ⟨{ Posts := posts,
            Pagination :=
              { CurrentPage := page,
                TotalPages := wrapInt (Int.tdiv totalCount PostsPerPage + 1),
                NumberOfPosts :=
                  if page < wrapInt (Int.tdiv totalCount PostsPerPage + 1) then (posts.length : Int)
                  else Int.tmod totalCount PostsPerPage } }, ?_, hpages, ?_⟩
  · cases encodeErr <;> rfl
  · show (if page < wrapInt (Int.tdiv totalCount PostsPerPage + 1) then (posts.length : Int)
        else Int.tmod totalCount PostsPerPage) = (posts.length : Int)
    rw [hpages]
    by_cases hlt : page < totalCount / 10 + 1
    · simp only [hlt, if_true]
    · simp only [hlt, if_false, PostsPerPage, tmod_ten (Int.le_of_lt ht)]
      rw [hlen]
      have hpg : page = totalCount / 10 + 1 := by omega
      subst hpg
      omega

/-- Witness for C28: 25 posts, page 3, a fetch that returns the five posts left. -/
theorem handlePagination_number_matches_posts_witness :
    ∃ res, (handlePagination none "3" 25 (fun start _ =>
        .ok (List.replicate (min 10 (max 0 (25 - start))).toNat ⟨1, "t", "c", 0, "l"⟩))).writes.head?
        = some (Write.json res) ∧
      res.Pagination.NumberOfPosts = (res.Posts.length : Int) := by
  obtain ⟨res, h1, _, h3⟩ := handlePagination_number_matches_posts none "3" 25
    (fun start _ => .ok (List.replicate (min 10 (max 0 (25 - start))).toNat ⟨1, "t", "c", 0, "l"⟩))
    3 (by decide) (by decide) (by decide) (by decide) (by decide)
    (by
      intro start limit
      refine ⟨_, rfl, ?_⟩
      simp only [List.length_replicate]
      omega)
  exact ⟨res, h1, h3⟩

end Gonews

namespace Comments

/-! ## Properties of the pops of the loop and of the recursive build -/

theorem run_loop {fuel : Nat} {cs : List Comment} {r : State × List Comment}
    (h : run fuel cs = some r) : loop fuel (start cs) = some r.1 := by
  unfold run at h
  simp only at h
  unfold start
  simp only
  split at h
  · cases h
  · rename_i s3 hs3
    split at h
    · cases h
    · cases h
      exact hs3

theorem loop_stack_nil : ∀ (fuel : Nat) (s r : State), loop fuel s = some r → r.stack = []
  | 0, s, r, h => by
    unfold loop at h
    split at h
    · rename_i hst
      cases h; exact hst
    · cases h
  | fuel + 1, s, r, h => by
    unfold loop at h
    split at h
    · rename_i hst
      cases h; exact hst
    · split at h
      · cases h
      · exact loop_stack_nil fuel _ r h

theorem popCount_of_loop : ∀ (fuel : Nat) (s r : State), loop fuel s = some r →
    ∃ k, k ≤ fuel ∧ popCount fuel s = some k
  | 0, s, r, h => by
    unfold loop at h
    unfold popCount
    split at h
    · exact ⟨0, Nat.le_refl _, rfl⟩
    · cases h
  | fuel + 1, s, r, h => by
    unfold loop at h
    unfold popCount
    split at h
    · exact ⟨0, Nat.zero_le _, rfl⟩
    · split at h
      · cases h
      · rename_i s1 hs1
        obtain ⟨k, hk, hpop⟩ := popCount_of_loop fuel s1 r h
        exact ⟨k + 1, by omega, by simp only [hpop]⟩

theorem popCount_mono : ∀ (fuel : Nat) (s : State) (k : Nat), popCount fuel s = some k →
    popCount (fuel + 1) s = some k
  | 0, s, k, h => by
    unfold popCount at h ⊢
    split at h
    · exact h
    · cases h
  | fuel + 1, s, k, h => by
    unfold popCount at h ⊢
    split at h
    · exact h
    · split at h
      · cases h
      · rename_i s1 hs1
        split at h
        · cases h
        · rename_i j hj
          simp only [popCount_mono fuel s1 j hj]
          exact h

theorem popCount_mono_add (fuel : Nat) (s : State) (k : Nat) (h : popCount fuel s = some k) :
    ∀ j, popCount (fuel + j) s = some k
  | 0 => h
  | j + 1 => popCount_mono _ s k (popCount_mono_add fuel s k h j)

/-- C25: for every input list with pairwise distinct identifiers the work-list
loop of `buildCommentTree` ends with an empty stack after at most n pops, n
being the input length. Every pointer pushed is popped, so the loop pushes at
most n pointers in all. -/
theorem buildCommentTree_pops_le (cs : List Comment) (hd : DistinctIDs cs) :
    ∃ k, k ≤ cs.length ∧
      ∀ fuel, cs.length ≤ fuel →
        popCount fuel (start cs) = some k ∧
          ∃ s, loop fuel (start cs) = some s ∧ s.stack = [] := by
  obtain ⟨forest, _, hrun, _⟩ := build_distinct hd
  obtain ⟨s, hs⟩ := buildCommentTree_eq.1 (hrun cs.length (Nat.le_refl _))
  obtain ⟨k, hk, hpop⟩ := popCount_of_loop _ _ _ (run_loop hs)
  refine ⟨k, hk, ?_⟩
  intro fuel hfuel
  obtain ⟨j, rfl⟩ : ∃ j, fuel = cs.length + j := ⟨fuel - cs.length, by omega⟩
  refine ⟨popCount_mono_add _ _ _ hpop j, ?_⟩
  obtain ⟨s', hs'⟩ := buildCommentTree_eq.1 (hrun (cs.length + j) (by omega))
  exact ⟨s', run_loop hs', loop_stack_nil _ _ _ (run_loop hs')⟩

/-- Witness for C25: the list 2, 3 (a reply to 2), 4 and a comment 5 whose parent
is missing: three pops. -/
theorem buildCommentTree_pops_le_witness :
    ∃ k, k ≤ 4 ∧
      popCount 4 (start [.mk 2 1 0 "a" 0 [], .mk 3 1 2 "b" 0 [], .mk 4 1 0 "c" 0 [],
        .mk 5 1 9 "d" 0 []]) = some k := by
  obtain ⟨k, hk, h⟩ := buildCommentTree_pops_le
    [.mk 2 1 0 "a" 0 [], .mk 3 1 2 "b" 0 [], .mk 4 1 0 "c" 0 [], .mk 5 1 9 "d" 0 []]
    (by unfold DistinctIDs; decide)
  exact ⟨k, hk, (h 4 (Nat.le_refl _)).1⟩

theorem cellValue_cellOf (c : Comment) : (cellOf c).value = c := by
  cases c; rfl

mutual
theorem attachReplies_of_isRef {cs : List Comment} (hempty : ∀ c ∈ cs, c.Replies = []) :
    ∀ (t x : Comment) (fuel : Nat), IsRefTree cs x.fields t → x.Replies = [] → t.size ≤ fuel →
      attachReplies (childrenOf cs) fuel x = some t
  | .mk i p q c tm rs, .mk i' p' q' c' tm' rs', fuel, href, hx, hfuel => by
    simp only [IsRefTree, Comment.fields, Fields.mk.injEq] at href
    obtain ⟨⟨rfl, rfl, rfl, rfl, rfl⟩, hrs⟩ := href
    simp only [Comment.Replies] at hx
    subst hx
    simp only [Comment.size] at hfuel
    obtain ⟨e, rfl⟩ : ∃ e, fuel = e + 1 := ⟨fuel - 1, by omega⟩
    have hkids : ∀ x ∈ childrenOf cs i, x.Replies = [] :=
      fun x hx => hempty x (mem_childrenOf.1 hx).1
    have := attachAll_of_isRef hempty rs (childrenOf cs i) [] e hrs hkids (by omega)
    simp only [attachReplies, Comment.ID, Comment.Replies, this, List.nil_append,
      Comment.PostID, Comment.ParentID, Comment.Content, Comment.AddTime]
theorem attachAll_of_isRef {cs : List Comment} (hempty : ∀ c ∈ cs, c.Replies = []) :
    ∀ (ts xs acc : List Comment) (fuel : Nat), IsRefList cs (xs.map Comment.fields) ts →
      (∀ x ∈ xs, x.Replies = []) → sizeList ts ≤ fuel →
      attachAll (attachReplies (childrenOf cs) fuel) xs acc = some (acc ++ ts)
  | [], [], acc, _, _, _, _ => by simp [attachAll]
  | _ :: _, [], _, _, h, _, _ => by simp [IsRefList] at h
  | [], _ :: _, _, _, h, _, _ => by simp [IsRefList] at h
  | t :: ts, x :: xs, acc, fuel, href, hxs, hfuel => by
    simp only [List.map_cons, IsRefList] at href
    simp only [sizeList] at hfuel
    have h1 := attachReplies_of_isRef hempty t x fuel href.1
      (hxs x (List.mem_cons_self _ _)) (by omega)
    have h2 := attachAll_of_isRef hempty ts xs (acc ++ [t]) fuel href.2
      (fun y hy => hxs y (List.mem_cons_of_mem _ hy)) (by omega)
    simp only [attachAll, h1, h2, List.append_assoc, List.singleton_append]
end

theorem readAll_attachReplies {cs : List Comment} (hempty : ∀ c ∈ cs, c.Replies = [])
    (fuel : Nat) : ∀ (ts xs : List Comment), IsRefList cs (xs.map Comment.fields) ts →
      (∀ x ∈ xs, x.Replies = []) → sizeList ts ≤ fuel →
      readAll (attachReplies (childrenOf cs) fuel) xs = some ts
  | [], [], _, _, _ => rfl
  | _ :: _, [], h, _, _ => by simp [IsRefList] at h
  | [], _ :: _, h, _, _ => by simp [IsRefList] at h
  | t :: ts, x :: xs, href, hxs, hfuel => by
    simp only [List.map_cons, IsRefList] at href
    simp only [sizeList] at hfuel
    have h1 := attachReplies_of_isRef hempty t x fuel href.1
      (hxs x (List.mem_cons_self _ _)) (by omega)
    have h2 := readAll_attachReplies hempty fuel ts xs href.2
      (fun y hy => hxs y (List.mem_cons_of_mem _ hy)) (by omega)
    simp only [readAll, h1, h2]

/-- C26: for every input list with pairwise distinct identifiers and empty
`Replies` on every input comment, the iterative build (the active code) and the
recursive build with `attachReplies` (commented out in the source) return the
same forest. -/
theorem buildCommentTree_recursive_eq (cs : List Comment) (hd : DistinctIDs cs)
    (hempty : ∀ c ∈ cs, c.Replies = []) :
    ∃ forest, (∀ fuel, cs.length ≤ fuel → buildCommentTree fuel cs = some forest) ∧
      ∀ fuel, cs.length ≤ fuel → buildCommentTreeRecursive fuel cs = some forest := by
  obtain ⟨forest, href, hrun, _, hsize, _⟩ := build_distinct hd
  refine ⟨forest, hrun, ?_⟩
  intro fuel hfuel
  obtain ⟨_, _, h3, h4⟩ := foldl_partitionStep cs
    { comments := cs, childrenMap := fun _ => [], roots := [], stack := [] }
  simp only [List.nil_append] at h3 h4
  have hmap : (fun k => ((cs.foldl partitionStep
      { comments := cs, childrenMap := fun _ => [], roots := [], stack := [] }).childrenMap k).map
        Cell.value) = childrenOf cs := by
    funext k
    rw [h4 k, List.map_map]
    have : (childrenOf cs k).map (Cell.value ∘ cellOf) = (childrenOf cs k).map id :=
      List.map_congr_left (fun c _ => cellValue_cellOf c)
    rw [this, List.map_id]
  have hroots : (cs.foldl partitionStep
      { comments := cs, childrenMap := fun _ => [], roots := [], stack := [] }).roots.map
        Cell.value = rootsOf cs := by
    rw [h3, List.map_map]
    have : (rootsOf cs).map (Cell.value ∘ cellOf) = (rootsOf cs).map id :=
      List.map_congr_left (fun c _ => cellValue_cellOf c)
    rw [this, List.map_id]
  unfold buildCommentTreeRecursive
  simp only [hmap, hroots]
  exact readAll_attachReplies hempty fuel forest (rootsOf cs) href
    (fun x hx => hempty x (mem_rootsOf.1 hx).1) (by omega)

/-- Witness for C26: the list 2, 3 (a reply to 2), 4. -/
theorem buildCommentTree_recursive_eq_witness :
    ∃ forest,
      buildCommentTree 3 [.mk 2 1 0 "a" 0 [], .mk 3 1 2 "b" 0 [], .mk 4 1 0 "c" 0 []]
        = some forest ∧
      buildCommentTreeRecursive 3 [.mk 2 1 0 "a" 0 [], .mk 3 1 2 "b" 0 [], .mk 4 1 0 "c" 0 []]
        = some forest := by
  obtain ⟨forest, h1, h2⟩ := buildCommentTree_recursive_eq
    [.mk 2 1 0 "a" 0 [], .mk 3 1 2 "b" 0 [], .mk 4 1 0 "c" 0 []]
    (by unfold DistinctIDs; decide)
    (by intro c hc; simp at hc; rcases hc with rfl | rfl | rfl <;> rfl)
  exact ⟨forest, h1 3 (Nat.le_refl _), h2 3 (Nat.le_refl _)⟩

end Comments
